import Mathlib

/-!
Verification of the literate-lsp request-forwarding core.

This file is a shallow embedding of the parts of the source that the
spec's claims are about:

* `src/virtual_doc.rs` — `build_virtual_document`, `find_code_block_at_line`
* `src/position.rs` — `PositionMapper::markdown_to_virtual` / `virtual_to_markdown`
* `src/request_mapper.rs` — `rewrite_positions`, `is_position_object`
* `src/config.rs` — `is_format_forbidden`, `get_forbidden_lsps`, `get_command_and_args`
* `src/child_lsp.rs` / `src/server.rs` — document-version tracking of the
  synthetic documents (`did_open` / `did_change` / `update_child_lsps`)
  and the generic position-request handler `handle_position_request`.

Modelling conventions:

* Rust strings are `List Char` (`Str` below); a document is its list of
  lines (the image of Rust `str::lines()`, which splits on a newline and
  strips a trailing carriage return).  Byte indices into ASCII patterns
  coincide with character indices.
* Rust `usize`/`u32` quantities that are line or column numbers are `Nat`;
  the `u64 -> u32` cast applied by `rewrite_positions` to JSON coordinates
  is modelled faithfully as `% 2 ^ 32`.  `i32` document versions are `Int`.
* `char::is_whitespace`/`to_lowercase` are modelled by `Char.isWhitespace`
  and `Char.toLower` (exact on the ASCII inputs all claims use).
* Growing a Rust `String` buffer by pushing lines and newline characters
  is modelled at line granularity: the buffer is its list of complete
  lines, and each `push('\n')` completes one line.
-/

/-- Abbreviation for a Rust string modelled as a list of characters. -/
abbrev Str := List Char

/-- The backtick character (code point 96). -/
def btChar : Char := Char.ofNat 96

/-- The three-backtick fence pattern, the string literal searched for by
`line.find("\x60\x60\x60")` and `line.contains("\x60\x60\x60")` in
`src/virtual_doc.rs`. -/
def fencePat : Str := [btChar, btChar, btChar]

/-- Number of leading backticks of a line:
`current_line.chars().take_while(|&c| c == '\x60').count()`
(src/virtual_doc.rs:111). -/
def leadingBackticks (l : Str) : Nat := (l.takeWhile (fun c => c = btChar)).length

/-- First index at which `fencePat` occurs in `l`, the model of Rust
`line.find("\x60\x60\x60")` (src/virtual_doc.rs:34). -/
def findFence : Str → Option Nat
  | [] => none
  | c :: rest =>
    if fencePat.isPrefixOf (c :: rest) then some 0
    else (findFence rest).map (fun n => n + 1)

/-- Whether `l` contains three consecutive backticks, the model of Rust
`line.contains("\x60\x60\x60")` (src/virtual_doc.rs:46). -/
def hasFence (l : Str) : Bool := (findFence l).isSome

/-- First whitespace-delimited token of `l`, the model of
`s.split_whitespace().next().unwrap_or("")`. -/
def firstToken (l : Str) : Str :=
  (l.dropWhile Char.isWhitespace).takeWhile (fun c => ¬ c.isWhitespace)

/-- Remove trailing whitespace characters from a single line (part of the
model of Rust `str::trim_end`). -/
def rtrimStr (l : Str) : Str := (l.reverse.dropWhile Char.isWhitespace).reverse

/-- Helper for `trimEndLines`, walking the reversed line list. -/
def trimEndLinesRev : List Str → List Str
  | [] => []
  | l :: rest =>
    if l.all Char.isWhitespace then trimEndLinesRev rest
    else rtrimStr l :: rest

/-- Model of `block_content.trim_end().lines()` (src/virtual_doc.rs:56)
where `block_content` is the concatenation of the stored content lines,
each terminated by a newline: trailing whitespace-only lines disappear and
the last surviving line loses its trailing whitespace. -/
def trimEndLines (ls : List Str) : List Str := (trimEndLinesRev ls.reverse).reverse

/-- One fenced block of the target language, `struct CodeBlock`
(src/virtual_doc.rs:3-13).  `content` holds the payload lines; the Rust
`content: String` field is their concatenation, each line terminated by a
newline. -/
structure CodeBlock where
  lang : Str
  markdown_start : Nat
  markdown_end : Nat
  content_start : Nat
  content_end : Nat
  virtual_start : Nat
  virtual_end : Nat
  content : List Str
deriving DecidableEq

instance : Inhabited CodeBlock := ⟨⟨[], 0, 0, 0, 0, 0, 0, []⟩⟩

/-- Result of a projection, `struct VirtualDocument` (src/virtual_doc.rs:15-19).
`vlines` is the list of lines of the Rust `content: String` buffer. -/
structure VirtualDocument where
  vlines : List Str
  blocks : List CodeBlock
deriving DecidableEq

/-- Mutable scan state of the loop in `build_virtual_document`
(src/virtual_doc.rs:24-30): the accumulated blocks, the synthetic buffer
(`virtual_content`, as its list of lines) and line counter, plus the
in-progress block. -/
structure BuildState where
  blocks : List CodeBlock
  vlines : List Str
  virtual_line : Nat
  in_code_block : Bool
  current_block_lang : Str
  block_start : Nat
  block_content : List Str
deriving DecidableEq

/-- Number of lines the loop body at src/virtual_doc.rs:55-68 appends to
the synthetic buffer for a block with payload `content`: the lines of
`content.trim_end()`, except that a nonempty all-whitespace payload still
contributes the single empty line produced by the unconditional trailing
`push('\n')`. -/
def pushedLines (content : List Str) : List Str :=
  let bl := trimEndLines content
  if bl.isEmpty then (if content.isEmpty then [] else [[]]) else bl

/-- The blank-line separator inserted before every block except the first
(src/virtual_doc.rs:50-53), as a list of buffer lines. -/
def sepLinesOf (s : BuildState) : List Str := if s.blocks.isEmpty then [] else [[]]

/-- The `CodeBlock` value pushed at src/virtual_doc.rs:70-79 when the block
closing at line `idx` matches the target language. -/
def newBlock (idx : Nat) (s : BuildState) : CodeBlock :=
  { lang := s.current_block_lang
    markdown_start := s.block_start
    markdown_end := idx
    content_start := s.block_start + 1
    content_end := idx - 1
    virtual_start := s.virtual_line + (sepLinesOf s).length
    virtual_end := s.virtual_line + (sepLinesOf s).length + (pushedLines s.block_content).length
    content := s.block_content }

/-- Effect of src/virtual_doc.rs:48-79 (separator, payload append, block
push) on the scan state. -/
def pushBlock (idx : Nat) (s : BuildState) : BuildState :=
  { s with
    blocks := s.blocks ++ [newBlock idx s]
    vlines := s.vlines ++ sepLinesOf s ++ pushedLines s.block_content
    virtual_line := s.virtual_line + (sepLinesOf s).length + (pushedLines s.block_content).length
    in_code_block := false }

/-- One iteration of the loop in `build_virtual_document`
(src/virtual_doc.rs:32-86) on line `idx`. -/
def buildStep (target : Str) (idx : Nat) (line : Str) (s : BuildState) : BuildState :=
  if ¬ s.in_code_block then
    match findFence line with
    | some pos =>
      { s with in_code_block := true
               current_block_lang := firstToken (line.drop (pos + 3))
               block_start := idx
               block_content := [] }
    | none => s
  else if hasFence line then
    if s.current_block_lang = target then pushBlock idx s
    else { s with in_code_block := false }
  else { s with block_content := s.block_content ++ [line] }

/-- The scan loop of `build_virtual_document`, starting at line `idx`. -/
def buildAux (target : Str) : Nat → List Str → BuildState → BuildState
  | _, [], s => s
  | idx, line :: rest, s => buildAux target (idx + 1) rest (buildStep target idx line s)

/-- Initial scan state of `build_virtual_document`. -/
def initBuildState : BuildState :=
  { blocks := [], vlines := [], virtual_line := 0, in_code_block := false
    current_block_lang := [], block_start := 0, block_content := [] }

/-- Model of `build_virtual_document` (src/virtual_doc.rs:21-97) applied to
the lines of the outer document. -/
def build_virtual_document (markdownLines : List Str) (target : Str) : VirtualDocument :=
  let s := buildAux target 0 markdownLines initBuildState
  { vlines := s.vlines, blocks := s.blocks }

/-- Declared language as computed when `find_code_block_at_line` opens a
fence (src/virtual_doc.rs:119-125): the first whitespace-delimited token
after the leading backtick run. -/
def langAfterTicks (l : Str) : Str :=
  if leadingBackticks l < l.length then firstToken (l.drop (leadingBackticks l)) else []

/-- The scan loop of `find_code_block_at_line` (src/virtual_doc.rs:109-138)
with its mutable state (`in_code_block`, `block_lang`, `block_start`,
`fence_backtick_count`) passed explicitly. -/
def findAux (queryLine : Nat) :
    Nat → List Str → Bool → Str → Nat → Nat → Option (Str × Nat × Nat)
  | _, [], _, _, _, _ => none
  | idx, cl :: rest, inb, blang, bstart, fcount =>
    if leadingBackticks cl < 3 then findAux queryLine (idx + 1) rest inb blang bstart fcount
    else if ¬ inb then
      findAux queryLine (idx + 1) rest true (langAfterTicks cl) idx (leadingBackticks cl)
    else if fcount ≤ leadingBackticks cl then
      if bstart ≤ queryLine ∧ queryLine ≤ idx then some (blang, bstart, idx)
      else findAux queryLine (idx + 1) rest false blang bstart fcount
    else findAux queryLine (idx + 1) rest inb blang bstart fcount

/-- Model of `find_code_block_at_line` (src/virtual_doc.rs:99-141). -/
def find_code_block_at_line (markdownLines : List Str) (line : Nat) :
    Option (Str × Nat × Nat) :=
  findAux line 0 markdownLines false [] 0 0

/-- Model of `PositionMapper::markdown_to_virtual` (src/position.rs:13-25):
the first block whose inclusive content range contains the line wins. -/
def markdown_to_virtual : List CodeBlock → Nat → Nat → Option (Nat × Nat)
  | [], _, _ => none
  | b :: rest, line, col =>
    if b.content_start ≤ line ∧ line ≤ b.content_end then
      some (b.virtual_start + (line - b.content_start), col)
    else markdown_to_virtual rest line col

/-- Model of `PositionMapper::virtual_to_markdown` (src/position.rs:27-38):
the first block whose half-open virtual range contains the line wins. -/
def virtual_to_markdown : List CodeBlock → Nat → Nat → Option (Nat × Nat)
  | [], _, _ => none
  | b :: rest, line, col =>
    if b.virtual_start ≤ line ∧ line < b.virtual_end then
      some (b.content_start + (line - b.virtual_start), col)
    else virtual_to_markdown rest line col

/-- String literal to character-list coercion helper. -/
def strL (s : String) : Str := s.toList

/-! Structural invariants of the block list produced by
`build_virtual_document`, proved by induction on the scan loop. -/

/-- Blocks are separated in the outer document: the earlier block's closing
fence line precedes the later block's opening fence line. -/
def mdOrder (a b : CodeBlock) : Prop := a.markdown_end < b.markdown_start

/-- Blocks occupy disjoint, increasing virtual line ranges. -/
def vOrder (a b : CodeBlock) : Prop := a.virtual_end < b.virtual_start

/-- Consecutive blocks are separated in the synthetic buffer by exactly one
line, and that line is blank. -/
def sepChain (vlines : List Str) (a b : CodeBlock) : Prop :=
  b.virtual_start = a.virtual_end + 1 ∧ vlines[a.virtual_end]? = some []

/-- Per-block well-formedness facts established by the scan. -/
structure BlockWF (b : CodeBlock) : Prop where
  cs : b.content_start = b.markdown_start + 1
  ce : b.content_end + 1 = b.markdown_end
  clen : b.content.length + b.content_start = b.content_end + 1
  vlen : b.virtual_end = b.virtual_start + (pushedLines b.content).length

theorem trimEndLinesRev_length_le (ls : List Str) :
    (trimEndLinesRev ls).length ≤ ls.length := by
  induction ls with
  | nil => simp [trimEndLinesRev]
  | cons l rest ih =>
    rw [trimEndLinesRev]
    split
    · exact Nat.le_succ_of_le ih
    · simp

theorem trimEndLines_length_le (ls : List Str) :
    (trimEndLines ls).length ≤ ls.length := by
  have h := trimEndLinesRev_length_le ls.reverse
  simpa [trimEndLines] using h

theorem pushedLines_length_le (c : List Str) : (pushedLines c).length ≤ c.length := by
  unfold pushedLines
  by_cases hbl : (trimEndLines c).isEmpty
  · rw [if_pos hbl]
    by_cases hc : c.isEmpty
    · simp [hc, List.isEmpty_iff.mp hc]
    · rw [if_neg hc]
      have : c ≠ [] := by
        intro h; exact hc (by simp [h])
      have : 1 ≤ c.length := List.length_pos.mpr this
      simpa using this
  · rw [if_neg hbl]
    exact trimEndLines_length_le c

theorem BlockWF.vs_le_ve {b : CodeBlock} (h : BlockWF b) :
    b.virtual_start ≤ b.virtual_end := by
  have := h.vlen; omega

theorem BlockWF.vspan_le_cspan {b : CodeBlock} (h : BlockWF b) :
    b.virtual_end - b.virtual_start ≤ b.content_end + 1 - b.content_start := by
  have h1 := h.vlen
  have h2 := h.clen
  have h3 := pushedLines_length_le b.content
  omega

/-- Invariant of the scan state after consuming the first `idx` lines. -/
structure StateInv (idx : Nat) (s : BuildState) : Prop where
  wf : ∀ b ∈ s.blocks, BlockWF b
  mdPw : s.blocks.Pairwise mdOrder
  vPw : s.blocks.Pairwise vOrder
  sep : List.Chain' (sepChain s.vlines) s.blocks
  vlen : s.vlines.length = s.virtual_line
  vtopLe : ∀ b ∈ s.blocks, b.virtual_end ≤ s.virtual_line
  vlast : (s.blocks.getLast?).elim 0 (fun b => b.virtual_end) = s.virtual_line
  mdBound : ∀ b ∈ s.blocks, b.markdown_end < idx
  inBlock : s.in_code_block = true →
    s.block_start + 1 + s.block_content.length = idx ∧
    ∀ b ∈ s.blocks, b.markdown_end < s.block_start

theorem sepChain_extend (vlines rest : List Str) :
    ∀ blocks : List CodeBlock, (∀ b ∈ blocks, BlockWF b) →
      (∀ b ∈ blocks, b.virtual_end ≤ vlines.length) →
      List.Chain' (sepChain vlines) blocks →
      List.Chain' (sepChain (vlines ++ rest)) blocks := by
  intro blocks
  induction blocks with
  | nil => intro _ _ _; simp
  | cons a t ih =>
    intro hwf hle hch
    cases t with
    | nil => simp
    | cons b t' =>
      rw [List.chain'_cons] at hch ⊢
      obtain ⟨⟨hvs, hget⟩, hch'⟩ := hch
      refine ⟨⟨hvs, ?_⟩, ?_⟩
      · have hbv : b.virtual_start ≤ b.virtual_end :=
          (hwf b (by simp)).vs_le_ve
        have hbl : b.virtual_end ≤ vlines.length := hle b (by simp)
        have hlt : a.virtual_end < vlines.length := by omega
        rw [List.getElem?_append, if_pos hlt]
        exact hget
      · exact ih (fun x hx => hwf x (by simp [hx])) (fun x hx => hle x (by simp [hx])) hch'

theorem stateInv_init : StateInv 0 initBuildState := by
  refine ⟨?_, ?_, ?_, ?_, ?_, ?_, ?_, ?_, ?_⟩ <;>
    simp [initBuildState]

theorem stateInv_push (idx : Nat) (s : BuildState) (inv : StateInv idx s)
    (hin : s.in_code_block = true) : StateInv (idx + 1) (pushBlock idx s) := by
  obtain ⟨hwf, hmd, hv, hsep, hvlen, hvle, hvlast, hbound, hinb⟩ := inv
  obtain ⟨hlen, hstart⟩ := hinb hin
  have hsl : ∀ a ∈ s.blocks, sepLinesOf s = [[]] := by
    intro a ha
    have hne : s.blocks ≠ [] := List.ne_nil_of_mem ha
    unfold sepLinesOf
    rw [if_neg (by simpa using hne)]
  refine ⟨?_, ?_, ?_, ?_, ?_, ?_, ?_, ?_, ?_⟩
  · -- well-formedness of every block
    intro b hb
    rcases List.mem_append.mp hb with hb | hb
    · exact hwf b hb
    · have hb' : b = newBlock idx s := List.mem_singleton.mp hb
      subst hb'
      exact ⟨rfl, by simp only [newBlock]; omega,
        by simp only [newBlock]; omega, rfl⟩
  · -- markdown ordering
    refine List.pairwise_append.mpr ⟨hmd, by simp, ?_⟩
    intro a ha b hb
    have hb' : b = newBlock idx s := List.mem_singleton.mp hb
    subst hb'
    exact hstart a ha
  · -- virtual ordering
    refine List.pairwise_append.mpr ⟨hv, by simp, ?_⟩
    intro a ha b hb
    have hb' : b = newBlock idx s := List.mem_singleton.mp hb
    subst hb'
    have h1 := hvle a ha
    show a.virtual_end < s.virtual_line + (sepLinesOf s).length
    rw [hsl a ha]
    simp only [List.length_singleton]
    omega
  · -- separator chain
    refine List.chain'_append.mpr ⟨?_, by simp, ?_⟩
    · show List.Chain'
        (sepChain (s.vlines ++ sepLinesOf s ++ pushedLines s.block_content)) s.blocks
      rw [List.append_assoc]
      refine sepChain_extend s.vlines (sepLinesOf s ++ pushedLines s.block_content)
        s.blocks hwf ?_ hsep
      intro b hb
      rw [hvlen]
      exact hvle b hb
    · intro x hx y hy
      have hy' : newBlock idx s = y := by simpa using hy
      subst hy'
      have hxl : s.blocks.getLast? = some x := hx
      have hxm : x ∈ s.blocks := by
        obtain ⟨hne, hxe⟩ := List.mem_getLast?_eq_getLast hx
        rw [hxe]
        exact List.getLast_mem hne
      have hxe : x.virtual_end = s.virtual_line := by
        rw [hxl] at hvlast
        simpa using hvlast
      constructor
      · show s.virtual_line + (sepLinesOf s).length = x.virtual_end + 1
        rw [hsl x hxm, hxe]
        simp
      · show ((s.vlines ++ sepLinesOf s) ++ pushedLines s.block_content)[x.virtual_end]? =
          some []
        rw [hxe]
        have h1 : s.virtual_line < (s.vlines ++ sepLinesOf s).length := by
          rw [hsl x hxm]
          simp [hvlen]
        rw [List.getElem?_append, if_pos h1, List.getElem?_append,
          if_neg (by simp [hvlen]), hvlen, Nat.sub_self, hsl x hxm]
        rfl
  · -- buffer length agrees with the line counter
    show (s.vlines ++ sepLinesOf s ++ pushedLines s.block_content).length =
      s.virtual_line + (sepLinesOf s).length + (pushedLines s.block_content).length
    simp only [List.length_append, hvlen]
  · -- all virtual ranges end at or below the counter
    intro b hb
    rcases List.mem_append.mp hb with hb | hb
    · have := hvle b hb
      show b.virtual_end ≤ s.virtual_line + (sepLinesOf s).length + (pushedLines s.block_content).length
      omega
    · have hb' : b = newBlock idx s := by simpa using hb
      subst hb'
      exact Nat.le_refl _
  · -- the last block ends exactly at the counter
    show ((s.blocks ++ [newBlock idx s]).getLast?).elim 0 (fun b => b.virtual_end) =
      s.virtual_line + (sepLinesOf s).length + (pushedLines s.block_content).length
    rw [List.getLast?_concat]
    rfl
  · -- markdown bounds
    intro b hb
    rcases List.mem_append.mp hb with hb | hb
    · exact Nat.lt_succ_of_lt (hbound b hb)
    · have hb' : b = newBlock idx s := by simpa using hb
      subst hb'
      exact Nat.lt_succ_self idx
  · -- no longer inside a block
    intro hh
    simp [pushBlock] at hh

theorem stateInv_step (target : Str) (idx : Nat) (line : Str) (s : BuildState)
    (h : StateInv idx s) : StateInv (idx + 1) (buildStep target idx line s) := by
  obtain ⟨hwf, hmd, hv, hsep, hvlen, hvle, hvlast, hbound, hinb⟩ := h
  unfold buildStep
  by_cases hin : s.in_code_block = true
  · rw [if_neg (by simp [hin])]
    by_cases hf : hasFence line = true
    · rw [if_pos hf]
      by_cases hl : s.current_block_lang = target
      · rw [if_pos hl]
        exact stateInv_push idx s ⟨hwf, hmd, hv, hsep, hvlen, hvle, hvlast, hbound, hinb⟩ hin
      · rw [if_neg hl]
        refine ⟨hwf, hmd, hv, hsep, hvlen, hvle, hvlast,
          fun b hb => Nat.lt_succ_of_lt (hbound b hb), ?_⟩
        intro hh
        simp at hh
    · rw [if_neg hf]
      obtain ⟨hlen, hstart⟩ := hinb hin
      refine ⟨hwf, hmd, hv, hsep, hvlen, hvle, hvlast,
        fun b hb => Nat.lt_succ_of_lt (hbound b hb), ?_⟩
      intro _
      refine ⟨?_, hstart⟩
      simp only [List.length_append, List.length_singleton]
      omega
  · rw [if_pos (by simp [hin])]
    cases hff : findFence line with
    | some pos =>
      refine ⟨hwf, hmd, hv, hsep, hvlen, hvle, hvlast,
        fun b hb => Nat.lt_succ_of_lt (hbound b hb), ?_⟩
      intro _
      exact ⟨by simp, fun b hb => hbound b hb⟩
    | none =>
      refine ⟨hwf, hmd, hv, hsep, hvlen, hvle, hvlast,
        fun b hb => Nat.lt_succ_of_lt (hbound b hb), ?_⟩
      intro hh
      exact absurd hh hin

theorem stateInv_buildAux (target : Str) :
    ∀ (lines : List Str) (idx : Nat) (s : BuildState), StateInv idx s →
      StateInv (idx + lines.length) (buildAux target idx lines s) := by
  intro lines
  induction lines with
  | nil => intro idx s h; simpa [buildAux] using h
  | cons l rest ih =>
    intro idx s h
    have h' := stateInv_step target idx l s h
    have := ih (idx + 1) (buildStep target idx l s) h'
    rw [buildAux]
    have harith : idx + 1 + rest.length = idx + (l :: rest).length := by
      simp; omega
    rw [harith] at this
    exact this

/-- The well-formedness package for the output of `build_virtual_document`. -/
theorem build_inv (markdownLines : List Str) (target : Str) :
    (∀ b ∈ (build_virtual_document markdownLines target).blocks, BlockWF b) ∧
    (build_virtual_document markdownLines target).blocks.Pairwise mdOrder ∧
    (build_virtual_document markdownLines target).blocks.Pairwise vOrder ∧
    List.Chain' (sepChain (build_virtual_document markdownLines target).vlines)
      (build_virtual_document markdownLines target).blocks := by
  have h := stateInv_buildAux target markdownLines 0 initBuildState stateInv_init
  exact ⟨h.wf, h.mdPw, h.vPw, h.sep⟩

/-! Lookup lemmas for the position mapper over a well-formed block list. -/

theorem mdv_hit : ∀ (blocks : List CodeBlock), (∀ b ∈ blocks, BlockWF b) →
    blocks.Pairwise mdOrder → ∀ b ∈ blocks, ∀ line col,
    b.content_start ≤ line → line ≤ b.content_end →
    markdown_to_virtual blocks line col =
      some (b.virtual_start + (line - b.content_start), col) := by
  intro blocks
  induction blocks with
  | nil => intro _ _ b hb; cases hb
  | cons a t ih =>
    intro hwf hpw b hb line col h1 h2
    rcases List.mem_cons.mp hb with hb | hb
    · subst hb
      simp only [markdown_to_virtual]
      rw [if_pos ⟨h1, h2⟩]
    · have hrel : mdOrder a b := (List.pairwise_cons.mp hpw).1 b hb
      have hawf : BlockWF a := hwf a (by simp)
      have hbwf : BlockWF b := hwf b (by simp [hb])
      have hmiss : ¬ (a.content_start ≤ line ∧ line ≤ a.content_end) := by
        rintro ⟨_, hle⟩
        have e1 := hawf.ce
        have e2 := hbwf.cs
        have e3 : a.markdown_end < b.markdown_start := hrel
        omega
      simp only [markdown_to_virtual]
      rw [if_neg hmiss]
      exact ih (fun x hx => hwf x (by simp [hx])) (List.pairwise_cons.mp hpw).2
        b hb line col h1 h2

theorem vtm_hit : ∀ (blocks : List CodeBlock), (∀ b ∈ blocks, BlockWF b) →
    blocks.Pairwise vOrder → ∀ b ∈ blocks, ∀ line col,
    b.virtual_start ≤ line → line < b.virtual_end →
    virtual_to_markdown blocks line col =
      some (b.content_start + (line - b.virtual_start), col) := by
  intro blocks
  induction blocks with
  | nil => intro _ _ b hb; cases hb
  | cons a t ih =>
    intro hwf hpw b hb line col h1 h2
    rcases List.mem_cons.mp hb with hb | hb
    · subst hb
      simp only [virtual_to_markdown]
      rw [if_pos ⟨h1, h2⟩]
    · have hrel : vOrder a b := (List.pairwise_cons.mp hpw).1 b hb
      have hmiss : ¬ (a.virtual_start ≤ line ∧ line < a.virtual_end) := by
        rintro ⟨_, hlt⟩
        have e3 : a.virtual_end < b.virtual_start := hrel
        omega
      simp only [virtual_to_markdown]
      rw [if_neg hmiss]
      exact ih (fun x hx => hwf x (by simp [hx])) (List.pairwise_cons.mp hpw).2
        b hb line col h1 h2

theorem vtm_none : ∀ (blocks : List CodeBlock) (line col : Nat),
    (∀ b ∈ blocks, ¬ (b.virtual_start ≤ line ∧ line < b.virtual_end)) →
    virtual_to_markdown blocks line col = none := by
  intro blocks
  induction blocks with
  | nil => intro _ _ _; rfl
  | cons a t ih =>
    intro line col h
    simp only [virtual_to_markdown]
    rw [if_neg (h a (by simp))]
    exact ih line col (fun b hb => h b (by simp [hb]))

/-! Concrete documents used by counterexamples and witnesses. -/

/-- The target language used in concrete examples. -/
def xLang : Str := strL ("x")

/-- Two x-blocks, the first payload ending in a blank line (a line that
`trim_end()` discards). -/
def mdTrailingBlank : List Str :=
  [strL ("```x"), strL ("a"), [], strL ("```"), strL ("```x"), strL ("b"), strL ("```")]

/-- A single x-block whose payload ends in a blank line. -/
def mdOneTrailingBlank : List Str := [strL ("```x"), strL ("a"), [], strL ("```")]

/-- Two plain x-blocks with one-line payloads. -/
def mdTwoBlocks : List Str :=
  [strL ("```x"), strL ("a"), strL ("```"), strL ("```x"), strL ("b"), strL ("```")]

/-- Payload block of `mdTwoBlocks`, as built by `build_virtual_document`. -/
def cbTwoBlocks0 : CodeBlock :=
  { lang := xLang, markdown_start := 0, markdown_end := 2, content_start := 1,
    content_end := 1, virtual_start := 0, virtual_end := 1, content := [strL ("a")] }

/-- C1, counterexample.  In `mdTrailingBlank` the outer blank line 2 lies
inside the first block's content range `[1, 2]`, but `trim_end()` dropped it
from the synthetic buffer, so `markdown_to_virtual` sends it to virtual
line 1 — the separator — and `virtual_to_markdown` maps it to `none`
instead of back to `(2, c)`.  The claimed round-trip law fails as stated. -/
theorem C1_counterexample :
    (∃ b ∈ (build_virtual_document mdTrailingBlank xLang).blocks,
      b.content_start ≤ 2 ∧ 2 ≤ b.content_end) ∧
    (markdown_to_virtual (build_virtual_document mdTrailingBlank xLang).blocks 2 0).bind
      (fun p => virtual_to_markdown (build_virtual_document mdTrailingBlank xLang).blocks
        p.1 p.2) ≠ some (2, 0) := by
  constructor
  · decide
  · decide

/-- C1 (amended).  For every block list produced by `build_virtual_document`
both round-trip laws hold, provided that in the outer-to-virtual direction
the line's offset inside the block is below the block's virtual span
(`line - content_start < virtual_end - virtual_start`); this coincides with
the claimed condition `line ≤ content_end` whenever the block's payload has
no trailing whitespace-only lines.  The virtual-to-outer direction holds
exactly as claimed. -/
theorem C1_round_trip_amended (markdownLines : List Str) (target : Str) (b : CodeBlock)
    (hb : b ∈ (build_virtual_document markdownLines target).blocks) :
    (∀ line col, b.content_start ≤ line →
      line - b.content_start < b.virtual_end - b.virtual_start →
      (markdown_to_virtual (build_virtual_document markdownLines target).blocks line col).bind
        (fun p => virtual_to_markdown
          (build_virtual_document markdownLines target).blocks p.1 p.2) =
        some (line, col)) ∧
    (∀ line col, b.virtual_start ≤ line → line < b.virtual_end →
      (virtual_to_markdown (build_virtual_document markdownLines target).blocks line col).bind
        (fun p => markdown_to_virtual
          (build_virtual_document markdownLines target).blocks p.1 p.2) =
        some (line, col)) := by
  obtain ⟨hwf, hmd, hv, _⟩ := build_inv markdownLines target
  have hbwf := hwf b hb
  have hspan := hbwf.vspan_le_cspan
  have hclen := hbwf.clen
  have hvlen := hbwf.vlen
  constructor
  · intro line col h1 h2
    have h3 : line ≤ b.content_end := by omega
    rw [mdv_hit _ hwf hmd b hb line col h1 h3, Option.some_bind]
    have hV1 : b.virtual_start ≤ b.virtual_start + (line - b.content_start) :=
      Nat.le_add_right _ _
    have hV2 : b.virtual_start + (line - b.content_start) < b.virtual_end := by omega
    rw [vtm_hit _ hwf hv b hb _ col hV1 hV2]
    have he : b.content_start + (b.virtual_start + (line - b.content_start) -
      b.virtual_start) = line := by omega
    rw [he]
  · intro line col h1 h2
    rw [vtm_hit _ hwf hv b hb line col h1 h2, Option.some_bind]
    have hM1 : b.content_start ≤ b.content_start + (line - b.virtual_start) :=
      Nat.le_add_right _ _
    have hM2 : b.content_start + (line - b.virtual_start) ≤ b.content_end := by omega
    rw [mdv_hit _ hwf hmd b hb _ col hM1 hM2]
    have he : b.virtual_start + (b.content_start + (line - b.virtual_start) -
      b.content_start) = line := by omega
    rw [he]

/-- C1, witness: the amended round trip applied to line 1 of the first
block of `mdTwoBlocks`. -/
theorem C1_witness :
    cbTwoBlocks0 ∈ (build_virtual_document mdTwoBlocks xLang).blocks ∧
    (markdown_to_virtual (build_virtual_document mdTwoBlocks xLang).blocks 1 5).bind
      (fun p => virtual_to_markdown (build_virtual_document mdTwoBlocks xLang).blocks
        p.1 p.2) = some (1, 5) :=
  ⟨by decide,
   (C1_round_trip_amended mdTwoBlocks xLang cbTwoBlocks0 (by decide)).1 1 5
     (by decide) (by decide)⟩

/-- C2, counterexample.  In `mdOneTrailingBlank` the single block has
content range `[1, 2]` (two payload lines) but virtual range `[0, 1)`
(one synthetic line), because `trim_end()` removed the trailing blank
payload line; the claimed equality
`virtual_end - virtual_start = content_end - content_start + 1` fails. -/
theorem C2_counterexample :
    ∃ b ∈ (build_virtual_document mdOneTrailingBlank xLang).blocks,
      b.virtual_end - b.virtual_start ≠ b.content_end - b.content_start + 1 := by
  decide

/-- C2 (amended).  Every block produced by `build_virtual_document`
satisfies `content_start = markdown_start + 1` and
`content_end = markdown_end - 1`; its virtual span equals the number of
lines of its payload after `trim_end()` (`pushedLines`), which is at most
`content_end - content_start + 1` and equals it exactly when the payload
has no trailing whitespace-only lines.  Blocks are pairwise disjoint and
ordered by opening line, and between consecutive blocks the synthetic
buffer holds exactly one line — line `virtual_end` of the earlier block,
outside both half-open virtual ranges — and that line is blank. -/
theorem C2_block_invariants_amended (markdownLines : List Str) (target : Str) :
    (∀ b ∈ (build_virtual_document markdownLines target).blocks,
      b.content_start = b.markdown_start + 1 ∧
      b.content_end + 1 = b.markdown_end ∧
      b.virtual_end = b.virtual_start + (pushedLines b.content).length ∧
      b.virtual_end - b.virtual_start ≤ b.content_end + 1 - b.content_start) ∧
    (build_virtual_document markdownLines target).blocks.Pairwise mdOrder ∧
    (build_virtual_document markdownLines target).blocks.Pairwise
      (fun a b => a.markdown_start < b.markdown_start) ∧
    List.Chain' (sepChain (build_virtual_document markdownLines target).vlines)
      (build_virtual_document markdownLines target).blocks := by
  obtain ⟨hwf, hmd, _, hsep⟩ := build_inv markdownLines target
  refine ⟨?_, hmd, ?_, hsep⟩
  · intro b hb
    have h := hwf b hb
    exact ⟨h.cs, h.ce, h.vlen, h.vspan_le_cspan⟩
  · refine hmd.imp_of_mem ?_
    intro a b ha hb hrel
    have hawf := hwf a ha
    have hbwf := hwf b hb
    have e1 := hawf.cs
    have e2 := hawf.ce
    have e3 := hawf.clen
    have e4 : a.markdown_end < b.markdown_start := hrel
    omega

/-- C2, witness: the invariants instantiated on the first block of
`mdTwoBlocks`. -/
theorem C2_witness :
    cbTwoBlocks0 ∈ (build_virtual_document mdTwoBlocks xLang).blocks ∧
    (cbTwoBlocks0.content_start = cbTwoBlocks0.markdown_start + 1 ∧
      cbTwoBlocks0.content_end + 1 = cbTwoBlocks0.markdown_end ∧
      cbTwoBlocks0.virtual_end =
        cbTwoBlocks0.virtual_start + (pushedLines cbTwoBlocks0.content).length ∧
      cbTwoBlocks0.virtual_end - cbTwoBlocks0.virtual_start ≤
        cbTwoBlocks0.content_end + 1 - cbTwoBlocks0.content_start) :=
  ⟨by decide,
   (C2_block_invariants_amended mdTwoBlocks xLang).1 cbTwoBlocks0 (by decide)⟩

/-- C9.  The separator line between consecutive blocks `k` and `k + 1` of a
virtual document — line `virtual_end` of block `k` — has no inverse
mapping: `virtual_to_markdown` returns `none` there for every column. -/
theorem C9_separator_unmapped (markdownLines : List Str) (target : Str) (k : Nat)
    (hk : k + 1 < (build_virtual_document markdownLines target).blocks.length)
    (col : Nat) :
    virtual_to_markdown (build_virtual_document markdownLines target).blocks
      (((build_virtual_document markdownLines target).blocks.getD k default).virtual_end)
      col = none := by
  obtain ⟨hwf, _, hv, hch⟩ := build_inv markdownLines target
  have hklt : k < (build_virtual_document markdownLines target).blocks.length := by omega
  set B := (build_virtual_document markdownLines target).blocks with hB
  have hget : B.getD k default = B.get ⟨k, hklt⟩ := List.getD_eq_getElem B default hklt
  rw [hget]
  apply vtm_none
  intro b' hb'
  obtain ⟨j, hj⟩ := List.mem_iff_get.mp hb'
  have hpw := List.pairwise_iff_get.mp hv
  have hchain : (B.get ⟨k + 1, hk⟩).virtual_start = (B.get ⟨k, hklt⟩).virtual_end + 1 := by
    have := List.chain'_iff_get.mp hch k (by omega)
    exact this.1
  rcases lt_trichotomy (j : Nat) k with hlt | heq | hgt
  · have hrel : b'.virtual_end < (B.get ⟨k, hklt⟩).virtual_start := by
      have := hpw ⟨j, j.2⟩ ⟨k, hklt⟩ hlt
      rw [hj] at this
      exact this
    have hwfk := hwf (B.get ⟨k, hklt⟩) (List.get_mem B k hklt)
    have := hwfk.vs_le_ve
    rintro ⟨_, hc⟩
    omega
  · rintro ⟨_, hc⟩
    have : b' = B.get ⟨k, hklt⟩ := by
      rw [← hj]
      congr 1
      exact Fin.ext heq
    rw [this] at hc
    omega
  · rcases Nat.lt_or_ge (k + 1) (j : Nat) with hgt' | hle'
    · have hrel : (B.get ⟨k + 1, hk⟩).virtual_end < b'.virtual_start := by
        have := hpw ⟨k + 1, hk⟩ ⟨j, j.2⟩ hgt'
        rw [hj] at this
        exact this
      have hwfk1 := hwf (B.get ⟨k + 1, hk⟩) (List.get_mem B (k + 1) hk)
      have := hwfk1.vs_le_ve
      rintro ⟨hc, _⟩
      omega
    · have heq' : (j : Nat) = k + 1 := by omega
      have : b' = B.get ⟨k + 1, hk⟩ := by
        rw [← hj]
        congr 1
        exact Fin.ext heq'
      rintro ⟨hc, _⟩
      rw [this] at hc
      omega

/-- C9, witness: the separator of `mdTwoBlocks` (virtual line 1) maps to
`none` at column 7. -/
theorem C9_witness :
    0 + 1 < (build_virtual_document mdTwoBlocks xLang).blocks.length ∧
    virtual_to_markdown (build_virtual_document mdTwoBlocks xLang).blocks
      (((build_virtual_document mdTwoBlocks xLang).blocks.getD 0 default).virtual_end)
      7 = none :=
  ⟨by decide, C9_separator_unmapped mdTwoBlocks xLang 0 (by decide) 7⟩

/-! Opening-rule characterization of the two fence scanners (C3/C4). -/

/-- Declared language as computed when `build_virtual_document` opens a
fence (src/virtual_doc.rs:34-38): the first whitespace-delimited token
after the first occurrence of three backticks. -/
def langAfterFind (l : Str) : Str :=
  match findFence l with
  | some p => firstToken (l.drop (p + 3))
  | none => []

/-- The opening rule exactly as the claim states it: the first
non-whitespace run of the line contains three consecutive backticks. -/
def opensPerClaim (l : Str) : Bool := hasFence (firstToken l)

theorem drop_eq_cons_head (md : List Str) (idx : Nat) (cl : Str) (rest : List Str)
    (h : md.drop idx = cl :: rest) : md.getD idx [] = cl ∧ md.drop (idx + 1) = rest := by
  constructor
  · have h0 : md[idx]? = some cl := by
      have h1 := List.getElem?_drop md idx 0
      rw [h] at h1
      simpa using h1.symm
    simp [List.getD, h0]
  · have h2 : (md.drop idx).drop 1 = md.drop (idx + 1) := List.drop_drop 1 idx md
    rw [← h2, h]
    rfl

theorem findAux_sound (md : List Str) (q : Nat) :
    ∀ (lines : List Str) (idx : Nat) (inb : Bool) (blang : Str) (bstart fcount : Nat),
      lines = md.drop idx →
      (inb = true → 3 ≤ leadingBackticks (md.getD bstart []) ∧
        blang = langAfterTicks (md.getD bstart [])) →
      ∀ lang s e, findAux q idx lines inb blang bstart fcount = some (lang, s, e) →
        3 ≤ leadingBackticks (md.getD s []) ∧ lang = langAfterTicks (md.getD s []) := by
  intro lines
  induction lines with
  | nil =>
    intro idx inb blang bstart fcount _ _ lang s e h
    simp [findAux] at h
  | cons cl rest ih =>
    intro idx inb blang bstart fcount hdrop hinv lang s e h
    obtain ⟨hhead, htail⟩ := drop_eq_cons_head md idx cl rest hdrop.symm
    rw [findAux] at h
    by_cases h3 : leadingBackticks cl < 3
    · rw [if_pos h3] at h
      exact ih (idx + 1) inb blang bstart fcount htail.symm hinv lang s e h
    · rw [if_neg h3] at h
      by_cases hi : inb = true
      · rw [if_neg (by simp [hi])] at h
        by_cases hf : fcount ≤ leadingBackticks cl
        · rw [if_pos hf] at h
          by_cases hq : bstart ≤ q ∧ q ≤ idx
          · rw [if_pos hq] at h
            simp only [Option.some.injEq, Prod.mk.injEq] at h
            obtain ⟨hl, hs, _⟩ := h
            subst hl
            subst hs
            exact hinv hi
          · rw [if_neg hq] at h
            refine ih (idx + 1) false blang bstart fcount htail.symm ?_ lang s e h
            intro hco
            simp at hco
        · rw [if_neg hf] at h
          exact ih (idx + 1) inb blang bstart fcount htail.symm hinv lang s e h
      · rw [if_pos hi] at h
        refine ih (idx + 1) true (langAfterTicks cl) idx (leadingBackticks cl)
          htail.symm ?_ lang s e h
        intro _
        rw [hhead]
        exact ⟨by omega, rfl⟩

theorem buildAux_sound (md : List Str) (target : Str) :
    ∀ (lines : List Str) (idx : Nat) (s : BuildState),
      lines = md.drop idx →
      (∀ b ∈ s.blocks, hasFence (md.getD b.markdown_start []) = true ∧
        b.lang = langAfterFind (md.getD b.markdown_start []) ∧ b.lang = target) →
      (s.in_code_block = true → hasFence (md.getD s.block_start []) = true ∧
        s.current_block_lang = langAfterFind (md.getD s.block_start [])) →
      ∀ b ∈ (buildAux target idx lines s).blocks,
        hasFence (md.getD b.markdown_start []) = true ∧
        b.lang = langAfterFind (md.getD b.markdown_start []) ∧ b.lang = target := by
  intro lines
  induction lines with
  | nil =>
    intro idx s _ hblocks _ b hb
    exact hblocks b hb
  | cons cl rest ih =>
    intro idx s hdrop hblocks hinb b hb
    obtain ⟨hhead, htail⟩ := drop_eq_cons_head md idx cl rest hdrop.symm
    rw [buildAux] at hb
    refine ih (idx + 1) (buildStep target idx cl s) htail.symm ?_ ?_ b hb
    · -- the block invariant survives one step
      intro b' hb'
      unfold buildStep at hb'
      by_cases hin : s.in_code_block = true
      · rw [if_neg (by simp [hin])] at hb'
        by_cases hf : hasFence cl = true
        · rw [if_pos hf] at hb'
          by_cases hl : s.current_block_lang = target
          · rw [if_pos hl] at hb'
            have hb'' : b' ∈ s.blocks ++ [newBlock idx s] := hb'
            rcases List.mem_append.mp hb'' with hmem | hmem
            · exact hblocks b' hmem
            · have he : b' = newBlock idx s := List.mem_singleton.mp hmem
              subst he
              obtain ⟨hfc, hlng⟩ := hinb hin
              exact ⟨hfc, hlng, hl⟩
          · rw [if_neg hl] at hb'
            exact hblocks b' hb'
        · rw [if_neg hf] at hb'
          exact hblocks b' hb'
      · rw [if_pos (by simp [hin])] at hb'
        cases hff : findFence cl with
        | some pos =>
          rw [hff] at hb'
          exact hblocks b' hb'
        | none =>
          rw [hff] at hb'
          exact hblocks b' hb'
    · -- the in-progress-block invariant survives one step
      intro hin'
      unfold buildStep at hin' ⊢
      by_cases hin : s.in_code_block = true
      · rw [if_neg (by simp [hin])] at hin' ⊢
        by_cases hf : hasFence cl = true
        · rw [if_pos hf] at hin' ⊢
          by_cases hl : s.current_block_lang = target
          · rw [if_pos hl] at hin'
            simp [pushBlock] at hin'
          · rw [if_neg hl] at hin'
            simp at hin'
        · rw [if_neg hf] at hin' ⊢
          exact hinb hin
      · rw [if_pos (by simp [hin])] at hin' ⊢
        cases hff : findFence cl with
        | some pos =>
          rw [hff] at hin'
          refine ⟨?_, ?_⟩
          · show hasFence (md.getD idx []) = true
            rw [hhead]
            simp [hasFence, hff]
          · show firstToken (cl.drop (pos + 3)) = langAfterFind (md.getD idx [])
            rw [hhead, langAfterFind, hff]
        | none =>
          rw [hff] at hin'
          exact absurd hin' hin

/-- A four-backtick fence enclosing a three-backtick line (the nested-fence
example the spec's closing rule is about). -/
def mdNested : List Str :=
  [strL ("````x"), strL ("a"), strL ("```"), strL ("b"), strL ("````")]

/-- A line whose first non-whitespace run contains three backticks, but not
as its leading characters. -/
def mdMidTicks : List Str := [strL ("a```x"), strL ("b"), strL ("```")]

/-- A line whose first non-whitespace run has no backticks but whose second
token opens a fence for `build_virtual_document`. -/
def mdTokenTicks : List Str := [strL ("x ```y"), strL ("b"), strL ("```")]

/-- C3, code-bug evidence.  On `mdNested`, `find_code_block_at_line`
implements the claimed closing rule: the fence opened with four backticks
at line 0 is closed only by line 4 (the first later line with at least four
leading backticks), so the inner three-backtick line 2 is content and the
reported block is `(x, 0, 4)`.  `build_virtual_document`, however, closes a
block at any line merely containing three backticks (`line.contains`), so
it terminates the block at line 2 — and, reading the language with
`line.find` + 3, records the language of line 0 as a backtick followed by
x rather than x — and collects no `x` block at all. -/
theorem C3_codebug_eval :
    find_code_block_at_line mdNested 2 = some (xLang, 0, 4) ∧
    (build_virtual_document mdNested xLang).blocks = [] ∧
    (build_virtual_document mdNested (btChar :: xLang)).blocks.map
      (fun b => (b.markdown_start, b.markdown_end)) = [(0, 2)] := by
  refine ⟨by decide, by decide, by decide⟩

/-- C4, counterexample.  The claimed opening rule (first non-whitespace run
contains three consecutive backticks) matches neither scanner: on
`mdMidTicks` the first line satisfies the claimed rule and
`build_virtual_document` opens a block at line 0, yet
`find_code_block_at_line` (which requires the backticks to be the leading
characters of the line) reports no block around line 1; on `mdTokenTicks`
the first line violates the claimed rule (its first run is `x`), yet
`build_virtual_document` (which searches for backticks anywhere in the
line) opens a block at line 0. -/
theorem C4_counterexample :
    opensPerClaim (strL ("a```x")) = true ∧
    find_code_block_at_line mdMidTicks 1 = none ∧
    (build_virtual_document mdMidTicks xLang).blocks.map
      (fun b => b.markdown_start) = [0] ∧
    opensPerClaim (strL ("x ```y")) = false ∧
    (build_virtual_document mdTokenTicks (strL ("y"))).blocks.map
      (fun b => b.markdown_start) = [0] := by
  refine ⟨by decide, by decide, by decide, by decide, by decide⟩

/-- C4 (amended).  The two scanners use different opening rules, neither of
which is the claimed first-non-whitespace-run rule.  Every block reported
by `find_code_block_at_line` opens at a line whose leading character run
consists of at least three backticks, and its language is the first
whitespace-delimited token after that leading run; every block collected by
`build_virtual_document` opens at a line containing three consecutive
backticks anywhere, and its language is the first whitespace-delimited
token after the first such occurrence (and equals the requested target). -/
theorem C4_opening_amended :
    (∀ (md : List Str) (q : Nat) (lang : Str) (s e : Nat),
      find_code_block_at_line md q = some (lang, s, e) →
      3 ≤ leadingBackticks (md.getD s []) ∧ lang = langAfterTicks (md.getD s [])) ∧
    (∀ (md : List Str) (target : Str) (b : CodeBlock),
      b ∈ (build_virtual_document md target).blocks →
      hasFence (md.getD b.markdown_start []) = true ∧
      b.lang = langAfterFind (md.getD b.markdown_start []) ∧ b.lang = target) := by
  constructor
  · intro md q lang s e h
    exact findAux_sound md q md 0 false [] 0 0 (by simp) (by intro h'; simp at h') lang s e h
  · intro md target b hb
    exact buildAux_sound md target md 0 initBuildState (by simp)
      (by intro b' hb'; simp [initBuildState] at hb')
      (by intro h'; simp [initBuildState] at h') b hb

/-- C4, witness: the find-side characterization applied to the first block
of `mdTwoBlocks`, and the build-side one applied to its first collected
block. -/
theorem C4_witness :
    (find_code_block_at_line mdTwoBlocks 1 = some (xLang, 0, 2) ∧
      3 ≤ leadingBackticks (mdTwoBlocks.getD 0 []) ∧
      xLang = langAfterTicks (mdTwoBlocks.getD 0 [])) ∧
    (cbTwoBlocks0 ∈ (build_virtual_document mdTwoBlocks xLang).blocks ∧
      hasFence (mdTwoBlocks.getD cbTwoBlocks0.markdown_start []) = true ∧
      cbTwoBlocks0.lang = langAfterFind (mdTwoBlocks.getD cbTwoBlocks0.markdown_start []) ∧
      cbTwoBlocks0.lang = xLang) :=
  ⟨⟨by decide, C4_opening_amended.1 mdTwoBlocks 1 xLang 0 2 (by decide)⟩,
   ⟨by decide, C4_opening_amended.2 mdTwoBlocks xLang cbTwoBlocks0 (by decide)⟩⟩

/-! Model of `serde_json::Value` and `rewrite_positions`
(src/request_mapper.rs).  Objects are association lists of key/value
pairs; `serde_json` maps have unique keys, and every operation below
follows the first binding of a key, so the modelling is faithful on such
states.  Numbers carry the integers `as_u64` distinguishes (the claims are
about integer-valued fields only). -/

inductive Json where
  | null
  | bool (b : Bool)
  | num (n : Int)
  | str (s : Str)
  | arr (xs : List Json)
  | obj (kvs : List (Str × Json))

/-- The key "line". -/
def lineKey : Str := strL ("line")

/-- The key "character". -/
def charKey : Str := strL ("character")

/-- First binding of `key`, the model of `serde_json::Map::get`. -/
def lookupKey : List (Str × Json) → Str → Option Json
  | [], _ => none
  | (k, v) :: t, key => if k = key then some v else lookupKey t key

/-- Model of `serde_json::Map::contains_key`. -/
def containsKey (kvs : List (Str × Json)) (key : Str) : Bool :=
  (lookupKey kvs key).isSome

/-- Replace the binding of an existing key, the model of `map[key] = v`
(the rewriting code only assigns keys that `is_position_object` proved
present). -/
def setKey : List (Str × Json) → Str → Json → List (Str × Json)
  | [], _, _ => []
  | (k, v) :: t, key, nv => if k = key then (k, nv) :: t else (k, v) :: setKey t key nv

/-- Model of `is_position_object` (src/request_mapper.rs:50-52): exactly
two entries, containing both `line` and `character`. -/
def is_position_object (kvs : List (Str × Json)) : Bool :=
  kvs.length == 2 && containsKey kvs lineKey && containsKey kvs charKey

/-- Model of `serde_json::Value::as_u64`: the value is a non-negative
integer below `2 ^ 64`. -/
def asU64 : Json → Option Nat
  | .num n => if 0 ≤ n ∧ n < 2 ^ 64 then some n.toNat else none
  | _ => none

/-- The pair of `u64` coordinates of a position object, the model of
`(map.get("line").and_then(as_u64), map.get("character").and_then(as_u64))`
when both components are present. -/
def posVals (kvs : List (Str × Json)) : Option (Nat × Nat) :=
  match (lookupKey kvs lineKey).bind asU64, (lookupKey kvs charKey).bind asU64 with
  | some l, some c => some (l, c)
  | _, _ => none

/-- The two direction functions a `PositionMapper` provides
(src/position.rs); `rewrite_positions` only consults them. -/
structure MapperFns where
  m2v : Nat → Nat → Option (Nat × Nat)
  v2m : Nat → Nat → Option (Nat × Nat)

/-- The mapper built from a block list, `PositionMapper::new`. -/
def mapperOfBlocks (blocks : List CodeBlock) : MapperFns :=
  { m2v := markdown_to_virtual blocks, v2m := virtual_to_markdown blocks }

/-- The `(new_line, new_char)` pair of src/request_mapper.rs:20-28: the
chosen direction applied to the (already truncated) coordinates, falling
back to them when the mapper returns `None`; the mapper's results are
`u32`-typed, modelled by `% 2 ^ 32`. -/
def mapPos (m : MapperFns) (toVirtual : Bool) (l c : Nat) : Nat × Nat :=
  match (if toVirtual then m.m2v l c else m.v2m l c) with
  | some p => (p.1 % 2 ^ 32, p.2 % 2 ^ 32)
  | none => (l, c)

mutual

/-- Model of `rewrite_positions` (src/request_mapper.rs:7-47).  A position
object gets its `line`/`character` fields replaced (`line as u32` is
`% 2 ^ 32`); a position-shaped object whose fields are not `u64` integers
is left entirely unchanged (no recursion); other objects and arrays are
rewritten recursively; scalars are untouched. -/
def rewrite_positions (m : MapperFns) (toVirtual : Bool) : Json → Json
  | .obj kvs =>
    if is_position_object kvs then
      match posVals kvs with
      | some lc =>
        .obj (setKey
          (setKey kvs lineKey
            (.num (Int.ofNat (mapPos m toVirtual (lc.1 % 2 ^ 32) (lc.2 % 2 ^ 32)).1)))
          charKey
          (.num (Int.ofNat (mapPos m toVirtual (lc.1 % 2 ^ 32) (lc.2 % 2 ^ 32)).2)))
      | none => .obj kvs
    else .obj (rewriteKvs m toVirtual kvs)
  | .arr xs => .arr (rewriteArr m toVirtual xs)
  | .null => .null
  | .bool b => .bool b
  | .num n => .num n
  | .str s => .str s

/-- `rewrite_positions` mapped over an array. -/
def rewriteArr (m : MapperFns) (toVirtual : Bool) : List Json → List Json
  | [] => []
  | x :: xs => rewrite_positions m toVirtual x :: rewriteArr m toVirtual xs

/-- `rewrite_positions` mapped over an object's values. -/
def rewriteKvs (m : MapperFns) (toVirtual : Bool) :
    List (Str × Json) → List (Str × Json)
  | [] => []
  | (k, v) :: t => (k, rewrite_positions m toVirtual v) :: rewriteKvs m toVirtual t

end

/-! Association-list lemmas for the object operations. -/

theorem lookup_setKey_same (kvs : List (Str × Json)) (key : Str) (v : Json) :
    lookupKey (setKey kvs key v) key = (lookupKey kvs key).map (fun _ => v) := by
  induction kvs with
  | nil => rfl
  | cons p t ih =>
    obtain ⟨k, w⟩ := p
    by_cases h : k = key
    · simp [setKey, lookupKey, h]
    · simp [setKey, lookupKey, h, ih]

theorem lookup_setKey_other (kvs : List (Str × Json)) (key k : Str) (v : Json)
    (h : k ≠ key) : lookupKey (setKey kvs key v) k = lookupKey kvs k := by
  induction kvs with
  | nil => rfl
  | cons p t ih =>
    obtain ⟨k1, w⟩ := p
    by_cases h1 : k1 = key
    · subst h1
      have hne : ¬ (k1 = k) := fun hc => h hc.symm
      simp [setKey, lookupKey, hne]
    · simp [setKey, lookupKey, h1, ih]

theorem length_setKey (kvs : List (Str × Json)) (key : Str) (v : Json) :
    (setKey kvs key v).length = kvs.length := by
  induction kvs with
  | nil => rfl
  | cons p t ih =>
    obtain ⟨k, w⟩ := p
    by_cases h : k = key
    · simp [setKey, h]
    · simp [setKey, h, ih]

theorem containsKey_setKey (kvs : List (Str × Json)) (key k : Str) (v : Json) :
    containsKey (setKey kvs key v) k = containsKey kvs k := by
  by_cases h : k = key
  · subst h
    unfold containsKey
    rw [lookup_setKey_same]
    cases lookupKey kvs k <;> rfl
  · unfold containsKey
    rw [lookup_setKey_other kvs key k v h]

theorem is_position_object_setKey (kvs : List (Str × Json)) (key : Str) (v : Json) :
    is_position_object (setKey kvs key v) = is_position_object kvs := by
  unfold is_position_object
  rw [length_setKey, containsKey_setKey, containsKey_setKey]

theorem setKey_setKey_same (kvs : List (Str × Json)) (key : Str) (v w : Json) :
    setKey (setKey kvs key v) key w = setKey kvs key w := by
  induction kvs with
  | nil => rfl
  | cons p t ih =>
    obtain ⟨k, u⟩ := p
    by_cases h : k = key
    · simp [setKey, h]
    · simp [setKey, h, ih]

theorem setKey_comm (kvs : List (Str × Json)) (key1 key2 : Str) (v1 v2 : Json)
    (h : key1 ≠ key2) :
    setKey (setKey kvs key1 v1) key2 v2 = setKey (setKey kvs key2 v2) key1 v1 := by
  induction kvs with
  | nil => rfl
  | cons p t ih =>
    obtain ⟨k, u⟩ := p
    by_cases h1 : k = key1
    · subst h1
      simp [setKey, fun hc : k = key2 => h hc, ih]
    · by_cases h2 : k = key2
      · subst h2
        simp [setKey, h1]
      · simp [setKey, h1, h2, ih]

theorem setKey_self (kvs : List (Str × Json)) (key : Str) (v : Json)
    (h : lookupKey kvs key = some v) : setKey kvs key v = kvs := by
  induction kvs with
  | nil => rfl
  | cons p t ih =>
    obtain ⟨k, w⟩ := p
    by_cases h1 : k = key
    · rw [lookupKey, if_pos h1] at h
      obtain rfl := Option.some.inj h
      simp [setKey, h1]
    · rw [lookupKey, if_neg h1] at h
      simp [setKey, h1, ih h]

theorem length_rewriteKvs (m : MapperFns) (tv : Bool) (kvs : List (Str × Json)) :
    (rewriteKvs m tv kvs).length = kvs.length := by
  induction kvs with
  | nil => rfl
  | cons p t ih =>
    obtain ⟨k, v⟩ := p
    simp [rewriteKvs, ih]

theorem lookup_rewriteKvs (m : MapperFns) (tv : Bool) (kvs : List (Str × Json))
    (key : Str) : lookupKey (rewriteKvs m tv kvs) key =
      (lookupKey kvs key).map (rewrite_positions m tv) := by
  induction kvs with
  | nil => rfl
  | cons p t ih =>
    obtain ⟨k, v⟩ := p
    by_cases h : k = key
    · simp [rewriteKvs, lookupKey, h]
    · simp [rewriteKvs, lookupKey, h, ih]

theorem containsKey_rewriteKvs (m : MapperFns) (tv : Bool) (kvs : List (Str × Json))
    (key : Str) : containsKey (rewriteKvs m tv kvs) key = containsKey kvs key := by
  unfold containsKey
  rw [lookup_rewriteKvs]
  cases lookupKey kvs key <;> rfl

theorem is_position_object_rewriteKvs (m : MapperFns) (tv : Bool)
    (kvs : List (Str × Json)) :
    is_position_object (rewriteKvs m tv kvs) = is_position_object kvs := by
  unfold is_position_object
  rw [length_rewriteKvs, containsKey_rewriteKvs, containsKey_rewriteKvs]

/-- Whether an optional value holds a JSON number. -/
def isNumOpt : Option Json → Bool
  | some (.num _) => true
  | _ => false

mutual

/-- Normalization that forgets exactly what `rewrite_positions` may change:
in every object with exactly the two keys `line` and `character` holding
numbers, both values are replaced by `0`; everything else is kept. -/
def eraseLC : Json → Json
  | .obj kvs =>
    if is_position_object kvs && isNumOpt (lookupKey kvs lineKey) &&
        isNumOpt (lookupKey kvs charKey) then
      .obj (setKey (setKey kvs lineKey (.num 0)) charKey (.num 0))
    else .obj (eraseKvs kvs)
  | .arr xs => .arr (eraseArr xs)
  | .null => .null
  | .bool b => .bool b
  | .num n => .num n
  | .str s => .str s

/-- `eraseLC` mapped over an array. -/
def eraseArr : List Json → List Json
  | [] => []
  | x :: xs => eraseLC x :: eraseArr xs

/-- `eraseLC` mapped over an object's values. -/
def eraseKvs : List (Str × Json) → List (Str × Json)
  | [] => []
  | (k, v) :: t => (k, eraseLC v) :: eraseKvs t

end

theorem bind_asU64_some (o : Option Json) (n : Nat) (h : o.bind asU64 = some n) :
    ∃ z : Int, o = some (.num z) ∧ 0 ≤ z ∧ z < 2 ^ 64 ∧ z.toNat = n := by
  rcases o with _ | j
  · simp at h
  · simp only [Option.some_bind] at h
    cases j with
    | num z =>
      refine ⟨z, rfl, ?_⟩
      simp only [asU64] at h
      by_cases hb : 0 ≤ z ∧ z < 2 ^ 64
      · rw [if_pos hb] at h
        exact ⟨hb.1, hb.2, Option.some.inj h⟩
      · rw [if_neg hb] at h
        cases h
    | null => simp [asU64] at h
    | bool b => simp [asU64] at h
    | str s => simp [asU64] at h
    | arr xs => simp [asU64] at h
    | obj kvs => simp [asU64] at h

theorem posVals_some_elim (kvs : List (Str × Json)) (l c : Nat)
    (h : posVals kvs = some (l, c)) :
    ∃ zl zc : Int,
      lookupKey kvs lineKey = some (.num zl) ∧ 0 ≤ zl ∧ zl < 2 ^ 64 ∧ zl.toNat = l ∧
      lookupKey kvs charKey = some (.num zc) ∧ 0 ≤ zc ∧ zc < 2 ^ 64 ∧ zc.toNat = c := by
  unfold posVals at h
  rcases hl : (lookupKey kvs lineKey).bind asU64 with _ | l'
  · rw [hl] at h
    simp at h
  · rcases hc : (lookupKey kvs charKey).bind asU64 with _ | c'
    · rw [hl, hc] at h
      simp at h
    · rw [hl, hc] at h
      simp only [Option.some.injEq, Prod.mk.injEq] at h
      obtain ⟨h1, h2⟩ := h
      subst h1
      subst h2
      obtain ⟨zl, hzl, hb1, hb2, hb3⟩ := bind_asU64_some _ _ hl
      obtain ⟨zc, hzc, hb4, hb5, hb6⟩ := bind_asU64_some _ _ hc
      exact ⟨zl, zc, hzl, hb1, hb2, hb3, hzc, hb4, hb5, hb6⟩

theorem posVals_intro (kvs : List (Str × Json)) (zl zc : Int)
    (hl : lookupKey kvs lineKey = some (.num zl))
    (hc : lookupKey kvs charKey = some (.num zc))
    (h1 : 0 ≤ zl) (h2 : zl < 2 ^ 64) (h3 : 0 ≤ zc) (h4 : zc < 2 ^ 64) :
    posVals kvs = some (zl.toNat, zc.toNat) := by
  unfold posVals
  rw [hl, hc]
  simp only [Option.some_bind, asU64]
  rw [if_pos ⟨h1, h2⟩, if_pos ⟨h3, h4⟩]

theorem eraseLC_set_pos (kvs : List (Str × Json)) (a b : Int)
    (hpos : is_position_object kvs = true)
    (zl zc : Int) (hzl : lookupKey kvs lineKey = some (.num zl))
    (hzc : lookupKey kvs charKey = some (.num zc)) :
    eraseLC (.obj (setKey (setKey kvs lineKey (.num a)) charKey (.num b))) =
      eraseLC (.obj kvs) := by
  have hlnc : lineKey ≠ charKey := by decide
  have hcnl : charKey ≠ lineKey := by decide
  have c1 : is_position_object (setKey (setKey kvs lineKey (.num a)) charKey (.num b)) =
      true := by
    rw [is_position_object_setKey, is_position_object_setKey]
    exact hpos
  have c2 : lookupKey (setKey (setKey kvs lineKey (.num a)) charKey (.num b)) lineKey =
      some (.num a) := by
    rw [lookup_setKey_other _ _ _ _ hlnc, lookup_setKey_same, hzl]
    rfl
  have c3 : lookupKey (setKey (setKey kvs lineKey (.num a)) charKey (.num b)) charKey =
      some (.num b) := by
    rw [lookup_setKey_same, lookup_setKey_other _ _ _ _ hcnl, hzc]
    rfl
  simp only [eraseLC, c1, c2, c3, hpos, hzl, hzc, isNumOpt, Bool.and_self,
    Bool.true_and, if_true]
  rw [setKey_comm (setKey kvs lineKey (.num a)) charKey lineKey (.num b) (.num 0) hcnl,
    setKey_setKey_same kvs lineKey (.num a) (.num 0),
    setKey_setKey_same (setKey kvs lineKey (.num 0)) charKey (.num b) (.num 0)]

mutual

theorem eraseLC_rewrite (m : MapperFns) (tv : Bool) :
    ∀ v : Json, eraseLC (rewrite_positions m tv v) = eraseLC v
  | .null => rfl
  | .bool _ => rfl
  | .num _ => rfl
  | .str _ => rfl
  | .arr xs => by
    show Json.arr (eraseArr (rewriteArr m tv xs)) = Json.arr (eraseArr xs)
    rw [eraseArr_rewrite m tv xs]
  | .obj kvs => by
    by_cases hpos : is_position_object kvs = true
    · rcases hv : posVals kvs with _ | ⟨l, c⟩
      · have hrw : rewrite_positions m tv (.obj kvs) = .obj kvs := by
          simp [rewrite_positions, hpos, hv]
        rw [hrw]
      · have hrw : rewrite_positions m tv (.obj kvs) =
            .obj (setKey
              (setKey kvs lineKey
                (.num (Int.ofNat (mapPos m tv (l % 2 ^ 32) (c % 2 ^ 32)).1)))
              charKey
              (.num (Int.ofNat (mapPos m tv (l % 2 ^ 32) (c % 2 ^ 32)).2))) := by
          simp [rewrite_positions, hpos, hv]
        rw [hrw]
        obtain ⟨zl, zc, hzl, _, _, _, hzc, _, _, _⟩ := posVals_some_elim kvs l c hv
        exact eraseLC_set_pos kvs _ _ hpos zl zc hzl hzc
    · rw [Bool.not_eq_true] at hpos
      have hrw : rewrite_positions m tv (.obj kvs) = .obj (rewriteKvs m tv kvs) := by
        simp [rewrite_positions, hpos]
      rw [hrw]
      have hA : is_position_object (rewriteKvs m tv kvs) = false := by
        rw [is_position_object_rewriteKvs]
        exact hpos
      simp only [eraseLC, hA, hpos, Bool.false_and]
      rw [eraseKvs_rewrite m tv kvs]
      simp

theorem eraseArr_rewrite (m : MapperFns) (tv : Bool) :
    ∀ xs : List Json, eraseArr (rewriteArr m tv xs) = eraseArr xs
  | [] => rfl
  | x :: xs => by
    show eraseLC (rewrite_positions m tv x) :: eraseArr (rewriteArr m tv xs) =
      eraseLC x :: eraseArr xs
    rw [eraseLC_rewrite m tv x, eraseArr_rewrite m tv xs]

theorem eraseKvs_rewrite (m : MapperFns) (tv : Bool) :
    ∀ kvs : List (Str × Json), eraseKvs (rewriteKvs m tv kvs) = eraseKvs kvs
  | [] => rfl
  | (k, v) :: t => by
    show (k, eraseLC (rewrite_positions m tv v)) :: eraseKvs (rewriteKvs m tv t) =
      (k, eraseLC v) :: eraseKvs t
    rw [eraseLC_rewrite m tv v, eraseKvs_rewrite m tv t]

end

/-- C10.  `rewrite_positions` preserves the whole shape of the JSON tree:
after normalizing away exactly the `line`/`character` values of
exactly-two-key number-valued position objects (`eraseLC`), the rewritten
tree is identical to the original.  In particular every object keeps its
key list, every array its length and order, and every other scalar its
value. -/
theorem C10_frame_preservation (m : MapperFns) (tv : Bool) (v : Json) :
    eraseLC (rewrite_positions m tv v) = eraseLC v :=
  eraseLC_rewrite m tv v

theorem rewrite_pos_eq (m : MapperFns) (tv : Bool) (kvs : List (Str × Json))
    (zl zc : Int) (hpos : is_position_object kvs = true)
    (hl : lookupKey kvs lineKey = some (.num zl))
    (hc : lookupKey kvs charKey = some (.num zc))
    (h1 : 0 ≤ zl) (h2 : zl < 2 ^ 64) (h3 : 0 ≤ zc) (h4 : zc < 2 ^ 64) :
    rewrite_positions m tv (.obj kvs) =
      .obj (setKey
        (setKey kvs lineKey
          (.num (Int.ofNat (mapPos m tv (zl.toNat % 2 ^ 32) (zc.toNat % 2 ^ 32)).1)))
        charKey
        (.num (Int.ofNat (mapPos m tv (zl.toNat % 2 ^ 32) (zc.toNat % 2 ^ 32)).2))) := by
  have hv := posVals_intro kvs zl zc hl hc h1 h2 h3 h4
  simp [rewrite_positions, hpos, hv]

theorem rewrite_pos_none_eq (m : MapperFns) (tv : Bool) (kvs : List (Str × Json))
    (zl zc : Int) (hpos : is_position_object kvs = true)
    (hl : lookupKey kvs lineKey = some (.num zl))
    (hc : lookupKey kvs charKey = some (.num zc))
    (h1 : 0 ≤ zl) (h2 : zl < 2 ^ 32) (h3 : 0 ≤ zc) (h4 : zc < 2 ^ 32)
    (hnone : (if tv then m.m2v zl.toNat zc.toNat else m.v2m zl.toNat zc.toNat) = none) :
    rewrite_positions m tv (.obj kvs) = .obj kvs := by
  rw [rewrite_pos_eq m tv kvs zl zc hpos hl hc h1 (by omega) h3 (by omega)]
  have e1 : zl.toNat % 2 ^ 32 = zl.toNat := Nat.mod_eq_of_lt (by omega)
  have e2 : zc.toNat % 2 ^ 32 = zc.toNat := Nat.mod_eq_of_lt (by omega)
  rw [e1, e2]
  have hm : mapPos m tv zl.toNat zc.toNat = (zl.toNat, zc.toNat) := by
    unfold mapPos
    rw [hnone]
  rw [hm]
  have g1 : Int.ofNat zl.toNat = zl := Int.toNat_of_nonneg h1
  have g2 : Int.ofNat zc.toNat = zc := Int.toNat_of_nonneg h3
  rw [g1, g2, setKey_self kvs lineKey _ hl, setKey_self kvs charKey _ hc]

theorem rewrite_nonpos_eq (m : MapperFns) (tv : Bool) (kvs : List (Str × Json))
    (hpos : is_position_object kvs = false) :
    rewrite_positions m tv (.obj kvs) = .obj (rewriteKvs m tv kvs) ∧
    ∀ (key : Str) (n : Int), lookupKey kvs key = some (.num n) →
      lookupKey (rewriteKvs m tv kvs) key = some (.num n) := by
  constructor
  · simp [rewrite_positions, hpos]
  · intro key n hkey
    rw [lookup_rewriteKvs, hkey]
    rfl

/-- C6 (amended).  An object is rewritten as a position exactly when it has
exactly the two keys `line` and `character` and both values are integers
representable as `u64`; the two values are first truncated modulo `2 ^ 32`
(the `as u32` casts) and then replaced through the mapper in the chosen
direction.  When the mapper returns none the object receives the truncated
original values back, so it is left unchanged exactly when both original
values are below `2 ^ 32` (for larger values the fail-open path still
truncates them).  Objects that are not exactly-two-key `line`/`character`
objects are never position-rewritten: their own `line`/`character` number
fields survive unchanged while their values are processed recursively. -/
theorem C6_position_rewrite_amended :
    (∀ (m : MapperFns) (tv : Bool) (kvs : List (Str × Json)) (zl zc : Int),
      is_position_object kvs = true →
      lookupKey kvs lineKey = some (.num zl) →
      lookupKey kvs charKey = some (.num zc) →
      0 ≤ zl → zl < 2 ^ 64 → 0 ≤ zc → zc < 2 ^ 64 →
      rewrite_positions m tv (.obj kvs) =
        .obj (setKey
          (setKey kvs lineKey
            (.num (Int.ofNat (mapPos m tv (zl.toNat % 2 ^ 32) (zc.toNat % 2 ^ 32)).1)))
          charKey
          (.num (Int.ofNat (mapPos m tv (zl.toNat % 2 ^ 32) (zc.toNat % 2 ^ 32)).2)))) ∧
    (∀ (m : MapperFns) (tv : Bool) (kvs : List (Str × Json)) (zl zc : Int),
      is_position_object kvs = true →
      lookupKey kvs lineKey = some (.num zl) →
      lookupKey kvs charKey = some (.num zc) →
      0 ≤ zl → zl < 2 ^ 32 → 0 ≤ zc → zc < 2 ^ 32 →
      (if tv then m.m2v zl.toNat zc.toNat else m.v2m zl.toNat zc.toNat) = none →
      rewrite_positions m tv (.obj kvs) = .obj kvs) ∧
    (∀ (m : MapperFns) (tv : Bool) (kvs : List (Str × Json)),
      is_position_object kvs = false →
      rewrite_positions m tv (.obj kvs) = .obj (rewriteKvs m tv kvs) ∧
      ∀ (key : Str) (n : Int), lookupKey kvs key = some (.num n) →
        lookupKey (rewriteKvs m tv kvs) key = some (.num n)) :=
  ⟨rewrite_pos_eq, rewrite_pos_none_eq, rewrite_nonpos_eq⟩

/-- A two-key position object with small coordinates. -/
def kvsSmall : List (Str × Json) := [(lineKey, .num 3), (charKey, .num 7)]

/-- A two-key position object whose line does not fit in 32 bits. -/
def kvsBig : List (Str × Json) := [(lineKey, .num (2 ^ 32)), (charKey, .num 0)]

/-- The integer stored under `line` at the top of a JSON object (0 as a
fallback); used to exhibit a changed field. -/
def lineIntOf (v : Json) : Int :=
  match v with
  | .obj kvs =>
    match lookupKey kvs lineKey with
    | some (.num n) => n
    | _ => 0
  | _ => 0

/-- C6, counterexample.  With the mapper of an empty block list (which maps
every coordinate to none) the claim says `{line: 2^32, character: 0}` is
left unchanged; in fact `line as u32` truncates the value, the mapper is
consulted at (0, 0) and returns none, and the fail-open path writes the
truncated 0 back: the object's `line` field changes from `2 ^ 32` to 0. -/
theorem C6_counterexample :
    markdown_to_virtual [] 0 0 = none ∧
    lineIntOf (Json.obj kvsBig) = 2 ^ 32 ∧
    lineIntOf (rewrite_positions (mapperOfBlocks []) true (Json.obj kvsBig)) = 0 :=
  ⟨rfl, rfl, rfl⟩

/-- C6, witness: the fail-open case applied to `{line: 3, character: 7}`
with the empty-block-list mapper — the object really is unchanged. -/
theorem C6_witness :
    is_position_object kvsSmall = true ∧
    rewrite_positions (mapperOfBlocks []) true (Json.obj kvsSmall) = Json.obj kvsSmall :=
  ⟨rfl, C6_position_rewrite_amended.2.1 (mapperOfBlocks []) true kvsSmall 3 7 rfl rfl rfl
    (by decide) (by decide) (by decide) (by decide) rfl⟩

/-! Model of the configuration tables and forbidden-format logic
(src/config.rs).  The `HashMap<String, LspConfig>` is an association list
consulted through its first binding; `command_exists` (a `PATH` probe) is
an oracle parameter. -/

/-- ASCII model of Rust `str::to_lowercase`. -/
def strToLower (s : Str) : Str := s.map Char.toLower

/-- The fixed forbidden-format set `FORBIDDEN_FORMATS` (src/config.rs:12-22). -/
def FORBIDDEN_FORMATS : List Str :=
  [strL ("md"), strL ("markdown"), strL ("typst"), strL ("rst"),
   strL ("restructuredtext"), strL ("org"), strL ("asciidoc"),
   strL ("latex"), strL ("tex")]

/-- `struct LspConfig` (src/config.rs:24-32). -/
structure LspConfig where
  command : Str
  args : List Str
  config : Json

/-- `enum LanguageServerEntry` (src/config.rs:41-46): a bare name or a
`{name, except-features}` object. -/
inductive LanguageServerEntry where
  | plain (s : Str)
  | wrapped (name : Str) (except_features : List Str)

/-- `LanguageServerEntry::to_server_name` (src/config.rs:72-79). -/
def LanguageServerEntry.to_server_name : LanguageServerEntry → Str
  | .plain s => s
  | .wrapped n _ => n

/-- `struct LanguageConfig` (src/config.rs:48-54). -/
structure LanguageConfig where
  name : Str
  language_servers : List LanguageServerEntry

/-- `struct Config` (src/config.rs:81-87). -/
structure Config where
  language : List LanguageConfig
  language_server : List (Str × LspConfig)

/-- First binding of a server name, the model of
`self.language_server.get(name)`. -/
def assocGetLS : List (Str × LspConfig) → Str → Option LspConfig
  | [], _ => none
  | (k, v) :: t, key => if k = key then some v else assocGetLS t key

/-- Substring test, the model of Rust `str::contains(&str)`. -/
def containsStr (hay pat : Str) : Bool :=
  if pat.isPrefixOf hay then true
  else match hay with
    | [] => false
    | _ :: t => containsStr t pat

/-- The exempted parent-server name. -/
def literateStr : Str := strL ("literate-lsp")

/-- The inner loop of `get_forbidden_lsps` (src/config.rs:318-327): add
every server of a forbidden language, skipping `literate-lsp`
(case-insensitively) and duplicates. -/
def addForbiddenServers (acc : List Str) : List LanguageServerEntry → List Str
  | [] => acc
  | e :: rest =>
    if strToLower e.to_server_name = literateStr then addForbiddenServers acc rest
    else if acc.contains e.to_server_name then addForbiddenServers acc rest
    else addForbiddenServers (acc ++ [e.to_server_name]) rest

/-- The language filter of `get_forbidden_lsps` (src/config.rs:315-317):
the language's name is in the fixed set, or contains one of its entries as
a substring. -/
def forbiddenLangCond (lc : LanguageConfig) : Bool :=
  FORBIDDEN_FORMATS.contains lc.name ||
  FORBIDDEN_FORMATS.any (fun fmt => containsStr lc.name fmt)

/-- The outer loop of `get_forbidden_lsps` over `self.language`. -/
def get_forbidden_lsps_aux : List LanguageConfig → List Str → List Str
  | [], acc => acc
  | lc :: rest, acc =>
    if forbiddenLangCond lc then
      get_forbidden_lsps_aux rest (addForbiddenServers acc lc.language_servers)
    else get_forbidden_lsps_aux rest acc

/-- Model of `Config::get_forbidden_lsps` (src/config.rs:310-331). -/
def get_forbidden_lsps (cfg : Config) : List Str := get_forbidden_lsps_aux cfg.language []

/-- Model of `Config::is_format_forbidden` (src/config.rs:334-346). -/
def is_format_forbidden (cfg : Config) (name : Str) : Bool :=
  FORBIDDEN_FORMATS.contains (strToLower name) ||
  (get_forbidden_lsps cfg).any (fun lsp => strToLower lsp = strToLower name)

/-- The server-list walk of `get_command_and_args` (src/config.rs:263-289),
with `command_exists` supplied as the oracle `ce`. -/
def walkServers (cfg : Config) (ce : Str → Bool) :
    List LanguageServerEntry → Option (Str × List Str)
  | [] => none
  | e :: rest =>
    if is_format_forbidden cfg e.to_server_name then walkServers cfg ce rest
    else match assocGetLS cfg.language_server e.to_server_name with
      | some lspc =>
        if lspc.command ≠ [] ∧ ce lspc.command = true then some (lspc.command, lspc.args)
        else walkServers cfg ce rest
      | none => walkServers cfg ce rest

/-- The language lookup branch of `get_command_and_args`
(src/config.rs:261-292). -/
def langWalk (cfg : Config) (ce : Str → Bool) (lang : Str) : Option (Str × List Str) :=
  match cfg.language.find? (fun l => l.name == lang) with
  | some language => walkServers cfg ce language.language_servers
  | none => none

/-- Model of `Config::get_command_and_args` (src/config.rs:252-295): a
direct server of that exact name with non-empty command wins; otherwise
the language's server list is walked. -/
def get_command_and_args (cfg : Config) (ce : Str → Bool) (lang : Str) :
    Option (Str × List Str) :=
  match assocGetLS cfg.language_server lang with
  | some lsp =>
    if lsp.command ≠ [] then some (lsp.command, lsp.args)
    else langWalk cfg ce lang
  | none => langWalk cfg ce lang

theorem addForbiddenServers_mono (es : List LanguageServerEntry) :
    ∀ (acc : List Str) (x : Str), x ∈ acc → x ∈ addForbiddenServers acc es := by
  induction es with
  | nil => intro acc x hx; exact hx
  | cons e rest ih =>
    intro acc x hx
    rw [addForbiddenServers]
    by_cases h1 : strToLower e.to_server_name = literateStr
    · rw [if_pos h1]
      exact ih acc x hx
    · rw [if_neg h1]
      by_cases h2 : acc.contains e.to_server_name = true
      · rw [if_pos h2]
        exact ih acc x hx
      · rw [if_neg h2]
        exact ih (acc ++ [e.to_server_name]) x (List.mem_append_left _ hx)

theorem addForbiddenServers_mem (es : List LanguageServerEntry) :
    ∀ (acc : List Str) (e : LanguageServerEntry), e ∈ es →
      strToLower e.to_server_name ≠ literateStr →
      e.to_server_name ∈ addForbiddenServers acc es := by
  induction es with
  | nil => intro acc e he; cases he
  | cons a rest ih =>
    intro acc e he hlit
    rw [addForbiddenServers]
    rcases List.mem_cons.mp he with he | he
    · subst he
      rw [if_neg hlit]
      by_cases h2 : acc.contains e.to_server_name = true
      · rw [if_pos h2]
        exact addForbiddenServers_mono rest acc _ (List.elem_iff.mp h2)
      · rw [if_neg h2]
        exact addForbiddenServers_mono rest _ _
          (List.mem_append_right _ (List.mem_singleton.mpr rfl))
    · by_cases h1 : strToLower a.to_server_name = literateStr
      · rw [if_pos h1]
        exact ih acc e he hlit
      · rw [if_neg h1]
        by_cases h2 : acc.contains a.to_server_name = true
        · rw [if_pos h2]
          exact ih acc e he hlit
        · rw [if_neg h2]
          exact ih _ e he hlit

theorem get_forbidden_lsps_aux_mono (langs : List LanguageConfig) :
    ∀ (acc : List Str) (x : Str), x ∈ acc → x ∈ get_forbidden_lsps_aux langs acc := by
  induction langs with
  | nil => intro acc x hx; exact hx
  | cons lc rest ih =>
    intro acc x hx
    rw [get_forbidden_lsps_aux]
    by_cases h : forbiddenLangCond lc = true
    · rw [if_pos h]
      exact ih _ x (addForbiddenServers_mono lc.language_servers acc x hx)
    · rw [if_neg h]
      exact ih acc x hx

theorem mem_get_forbidden_lsps (cfg : Config) (lc : LanguageConfig)
    (e : LanguageServerEntry) (hlc : lc ∈ cfg.language)
    (hname : lc.name ∈ FORBIDDEN_FORMATS) (he : e ∈ lc.language_servers)
    (hlit : strToLower e.to_server_name ≠ literateStr) :
    e.to_server_name ∈ get_forbidden_lsps cfg := by
  suffices h : ∀ (langs : List LanguageConfig) (acc : List Str), lc ∈ langs →
      e.to_server_name ∈ get_forbidden_lsps_aux langs acc from
    h cfg.language [] hlc
  intro langs
  induction langs with
  | nil => intro acc h; cases h
  | cons a rest ih =>
    intro acc h
    rw [get_forbidden_lsps_aux]
    rcases List.mem_cons.mp h with h | h
    · subst h
      have hcond : forbiddenLangCond lc = true := by
        unfold forbiddenLangCond
        have hcont : FORBIDDEN_FORMATS.contains lc.name = true :=
          List.elem_iff.mpr hname
        rw [hcont]
        rfl
      rw [if_pos hcond]
      exact get_forbidden_lsps_aux_mono rest _ _
        (addForbiddenServers_mem lc.language_servers acc e he hlit)
    · by_cases hcond : forbiddenLangCond a = true
      · rw [if_pos hcond]
        exact ih _ h
      · rw [if_neg hcond]
        exact ih acc h

theorem walkServers_not_forbidden (cfg : Config) (ce : Str → Bool) :
    ∀ (entries : List LanguageServerEntry) (r : Str × List Str),
      walkServers cfg ce entries = some r →
      ∃ e ∈ entries, is_format_forbidden cfg e.to_server_name = false ∧
        ∃ lspc, assocGetLS cfg.language_server e.to_server_name = some lspc ∧
          r = (lspc.command, lspc.args) := by
  intro entries
  induction entries with
  | nil =>
    intro r h
    simp [walkServers] at h
  | cons e rest ih =>
    intro r h
    rw [walkServers] at h
    by_cases hf : is_format_forbidden cfg e.to_server_name = true
    · rw [if_pos hf] at h
      obtain ⟨e', he', hrest⟩ := ih r h
      exact ⟨e', List.mem_cons_of_mem e he', hrest⟩
    · rw [if_neg hf] at h
      cases hg : assocGetLS cfg.language_server e.to_server_name with
      | some lspc =>
        rw [hg] at h
        dsimp only at h
        by_cases hcmd : lspc.command ≠ [] ∧ ce lspc.command = true
        · rw [if_pos hcmd] at h
          obtain rfl := Option.some.inj h.symm
          have hf2 : is_format_forbidden cfg e.to_server_name = false := by
            rw [Bool.not_eq_true] at hf
            exact hf
          exact ⟨e, List.mem_cons_self e rest, hf2, lspc, hg, rfl⟩
        · rw [if_neg hcmd] at h
          obtain ⟨e', he', hrest⟩ := ih r h
          exact ⟨e', List.mem_cons_of_mem e he', hrest⟩
      | none =>
        rw [hg] at h
        dsimp only at h
        obtain ⟨e', he', hrest⟩ := ih r h
        exact ⟨e', List.mem_cons_of_mem e he', hrest⟩

/-- C8.  Every name whose (ASCII) lowercase form is in `FORBIDDEN_FORMATS`
is refused by `is_format_forbidden`; every server the configuration
declares for a language named by the fixed set — except `literate-lsp`
itself — is refused too; and whenever `get_command_and_args` succeeds it
either hit a direct server of the requested name or selected, from the
language's server list, an entry that `is_format_forbidden` does not
refuse.  In particular the walk never selects a forbidden server. -/
theorem C8_forbidden_formats :
    (∀ (cfg : Config) (name : Str), strToLower name ∈ FORBIDDEN_FORMATS →
      is_format_forbidden cfg name = true) ∧
    (∀ (cfg : Config) (lc : LanguageConfig) (e : LanguageServerEntry),
      lc ∈ cfg.language → lc.name ∈ FORBIDDEN_FORMATS → e ∈ lc.language_servers →
      strToLower e.to_server_name ≠ literateStr →
      is_format_forbidden cfg e.to_server_name = true) ∧
    (∀ (cfg : Config) (ce : Str → Bool) (lang : Str) (r : Str × List Str),
      get_command_and_args cfg ce lang = some r →
      (∃ lsp, assocGetLS cfg.language_server lang = some lsp ∧
        lsp.command ≠ [] ∧ r = (lsp.command, lsp.args)) ∨
      (∃ language, cfg.language.find? (fun l => l.name == lang) = some language ∧
        ∃ e ∈ language.language_servers,
          is_format_forbidden cfg e.to_server_name = false ∧
          ∃ lspc, assocGetLS cfg.language_server e.to_server_name = some lspc ∧
            r = (lspc.command, lspc.args))) := by
  refine ⟨?_, ?_, ?_⟩
  · intro cfg name h
    unfold is_format_forbidden
    have hcont : FORBIDDEN_FORMATS.contains (strToLower name) = true :=
      List.elem_iff.mpr h
    rw [hcont]
    rfl
  · intro cfg lc e hlc hname he hlit
    have hmem := mem_get_forbidden_lsps cfg lc e hlc hname he hlit
    unfold is_format_forbidden
    have hany : (get_forbidden_lsps cfg).any
        (fun lsp => strToLower lsp = strToLower e.to_server_name) = true := by
      rw [List.any_eq_true]
      exact ⟨e.to_server_name, hmem, by simp⟩
    rw [hany]
    simp
  · intro cfg ce lang r h
    have hwalk : ∀ hl : langWalk cfg ce lang = some r,
        ∃ language, cfg.language.find? (fun l => l.name == lang) = some language ∧
          ∃ e ∈ language.language_servers,
            is_format_forbidden cfg e.to_server_name = false ∧
            ∃ lspc, assocGetLS cfg.language_server e.to_server_name = some lspc ∧
              r = (lspc.command, lspc.args) := by
      intro hl
      unfold langWalk at hl
      cases hfind : cfg.language.find? (fun l => l.name == lang) with
      | some language =>
        rw [hfind] at hl
        exact ⟨language, rfl, walkServers_not_forbidden cfg ce _ r hl⟩
      | none =>
        rw [hfind] at hl
        cases hl
    unfold get_command_and_args at h
    cases hg : assocGetLS cfg.language_server lang with
    | some lsp =>
      rw [hg] at h
      dsimp only at h
      by_cases hc : lsp.command ≠ []
      · rw [if_pos hc] at h
        obtain rfl := Option.some.inj h.symm
        exact Or.inl ⟨lsp, rfl, hc, rfl⟩
      · rw [if_neg hc] at h
        exact Or.inr (hwalk h)
    | none =>
      rw [hg] at h
      dsimp only at h
      exact Or.inr (hwalk h)

/-- The empty configuration. -/
def cfgEmpty : Config := { language := [], language_server := [] }

/-- C8, witness: `MD` is refused case-insensitively even by the empty
configuration. -/
theorem C8_witness :
    strToLower (strL ("MD")) ∈ FORBIDDEN_FORMATS ∧
    is_format_forbidden cfgEmpty (strL ("MD")) = true :=
  ⟨by decide, C8_forbidden_formats.1 cfgEmpty (strL ("MD")) (by decide)⟩

/-! Model of the synthetic-document version protocol (C7).  `did_open`
hard-codes version 1 (src/child_lsp.rs:205-218); `update_child_lsps`
(src/server.rs:91-117) reads the language's entry of the `child_versions`
map (`unwrap_or(0)`), sends `did_change` with that value plus one, and
records the new value only when the send succeeded.  Creating a child
(src/server.rs:370-396) inserts no `child_versions` entry. -/

inductive SentMsg where
  | openMsg (version : Int)
  | changeMsg (version : Int)
deriving DecidableEq

/-- Per-language version state: the `child_versions` entry and the
notifications delivered to the child so far. -/
structure VerState where
  entry : Option Int
  sent : List SentMsg
deriving DecidableEq

/-- Child creation: `did_open` with version 1, no `child_versions` entry. -/
def createChild : VerState := { entry := none, sent := [SentMsg.openMsg 1] }

/-- One `update_child_lsps` iteration for this language; `deliveryOk` tells
whether `did_change` returned Ok (on Err the version is not recorded and
the notification is not counted as delivered). -/
def updateStep (s : VerState) (deliveryOk : Bool) : VerState :=
  if deliveryOk then
    { entry := some (s.entry.getD 0 + 1)
      sent := s.sent ++ [SentMsg.changeMsg (s.entry.getD 0 + 1)] }
  else s

/-- The notifications sent for one language: creation followed by a
sequence of update rounds. -/
def runVersions (updates : List Bool) : VerState := updates.foldl updateStep createChild

/-- The version carried by a notification. -/
def versionOf : SentMsg → Int
  | .openMsg v => v
  | .changeMsg v => v

/-- Helper of `versionsStrict`: every `didChange` in the remaining list
carries a version strictly above every previously sent version. -/
def strictAux : List SentMsg → List Int → Bool
  | [], _ => true
  | m :: rest, past =>
    (match m with
     | .changeMsg v => past.all (fun p => p < v)
     | .openMsg _ => true) && strictAux rest (past ++ [versionOf m])

/-- The claim's property: every `didChange` version is strictly greater
than all versions previously sent for the document. -/
def versionsStrict (sent : List SentMsg) : Bool := strictAux sent []

/-- C7, counterexample.  After creation (didOpen version 1) the first
successful `did_change` reads the absent `child_versions` entry as 0 and
sends version 0 + 1 = 1 — equal to, not greater than, the version of the
`didOpen`; the claimed strict monotonicity over all previously sent
versions fails. -/
theorem C7_counterexample :
    (runVersions [true]).sent = [SentMsg.openMsg 1, SentMsg.changeMsg 1] ∧
    versionsStrict (runVersions [true]).sent = false := by
  refine ⟨by decide, by decide⟩

theorem runVersions_spec (updates : List Bool) :
    (runVersions updates).entry.getD 0 = (updates.count true : Int) ∧
    (runVersions updates).sent =
      SentMsg.openMsg 1 :: (List.range (updates.count true)).map
        (fun i : Nat => SentMsg.changeMsg ((i : Int) + 1)) := by
  induction updates using List.reverseRecOn with
  | nil => exact ⟨rfl, rfl⟩
  | append_singleton us b ih =>
    obtain ⟨h1, h2⟩ := ih
    unfold runVersions at h1 h2 ⊢
    rw [List.foldl_append]
    simp only [List.foldl_cons, List.foldl_nil]
    cases b
    · have hstep : updateStep (List.foldl updateStep createChild us) false =
          List.foldl updateStep createChild us := by
        simp [updateStep]
      have hc : (us ++ [false]).count true = us.count true := by
        simp [List.count_append]
      rw [hstep, hc]
      exact ⟨h1, h2⟩
    · have hstep : updateStep (List.foldl updateStep createChild us) true =
          { entry := some ((List.foldl updateStep createChild us).entry.getD 0 + 1)
            sent := (List.foldl updateStep createChild us).sent ++
              [SentMsg.changeMsg ((List.foldl updateStep createChild us).entry.getD 0 + 1)] } := by
        simp [updateStep]
      have hc : (us ++ [true]).count true = us.count true + 1 := by
        simp [List.count_append]
      rw [hstep, hc]
      constructor
      · dsimp only
        simp only [Option.getD_some]
        rw [h1]
        push_cast
        ring
      · dsimp only
        rw [h2, h1,
          show us.count true + 1 = (us.count true).succ from rfl,
          List.range_succ, List.map_append]
        simp

/-- C7 (amended).  The `didOpen` for a language carries version 1, and the
i-th successfully delivered `didChange` carries version i (starting at 1):
`didChange` versions strictly increase among themselves, but the first one
equals — rather than exceeds — the `didOpen` version, because child
creation never seeds the `child_versions` map. -/
theorem C7_versions_amended (updates : List Bool) :
    (runVersions updates).sent =
      SentMsg.openMsg 1 :: (List.range (updates.count true)).map
        (fun i : Nat => SentMsg.changeMsg ((i : Int) + 1)) :=
  (runVersions_spec updates).2

/-! Model of the generic position-request handler
`LiterateLsp::handle_position_request` (src/server.rs:174-455).  The
effectful collaborators are oracles in `HandlerEnv`: the stored document,
whether a child is already pooled, the outcome of child initialization,
the child's reply to `send_request_raw`, the regex-based reference
rewriter (`map_virtual_doc_references`), and the `PATH` probe of the
configuration lookup.  The debug dump of the synthetic buffer to `/tmp`
(src/server.rs:285-292) ignores its own failure and does not influence the
returned value, so it has no counterpart here.  The long explanatory hover
message templates (src/server.rs:214-219, 261-272, 316-355) are shortened
to representative strings: only the shape `{"result": {"contents": …}}`
matters to the claims. -/

/-- The dot character. -/
def dotChar : Char := Char.ofNat 46

/-- The slash character. -/
def slashChar : Char := Char.ofNat 47

/-- The key "uri". -/
def uriKey : Str := strL ("uri")

/-- The key "result". -/
def resultKey : Str := strL ("result")

/-- The markdown-like extensions of `get_document_language`
(src/server.rs:48). -/
def markdownExts : List Str :=
  [strL ("md"), strL ("markdown"), strL ("mdown"), strL ("mkdn"),
   strL ("mdx"), strL ("mmd")]

/-- Model of `get_document_language` (src/server.rs:43-56) on the URI's
path: lowercase the last dot-separated segment and map it to a language. -/
def get_document_language (path : Str) : Option Str :=
  let ext := strToLower ((path.reverse.takeWhile (fun c => ¬ c = dotChar)).reverse)
  if markdownExts.contains ext then some (strL ("markdown"))
  else if ext = strL ("typ") then some (strL ("typst"))
  else if ext = strL ("go") then some (strL ("go"))
  else if ext = strL ("forth") ∨ ext = strL ("fth") then some (strL ("forth"))
  else none

/-- Model of `should_skip_language` (src/server.rs:60-68). -/
def should_skip_language (docLang : Option Str) (blockLang : Str) : Bool :=
  match docLang with
  | some d =>
    (d == strL ("markdown") && blockLang == strL ("markdown")) ||
    (d == strL ("typst") && blockLang == strL ("typst")) ||
    (d == strL ("go") && blockLang == strL ("go")) ||
    (d == strL ("forth") && blockLang == strL ("forth"))
  | none => false

/-- Model of `uri_helpers::extract_root_uri_base`
(src/utils/uri_helpers.rs:8-10): everything before the last slash. -/
def extract_root_uri_base (uri : Str) : Str :=
  match uri.reverse.dropWhile (fun c => ¬ c = slashChar) with
  | [] => []
  | _ :: t => t.reverse

/-- Model of `uri_helpers::construct_virtual_uri`
(src/utils/uri_helpers.rs:16-18). -/
def construct_virtual_uri (base lang : Str) : Str :=
  base ++ strL ("/virtual.") ++ lang

/-- The hover-shaped synthetic response `{"result": {"contents": msg}}`
(src/server.rs:221-225 and analogous branches). -/
def mkHoverResponse (msg : Str) : Json :=
  .obj [(resultKey, .obj [(strL ("contents"), .str msg)])]

/-- Representative text of the self-referential message
(src/server.rs:214-219; the full template is elided). -/
def selfRefMessage (lang : Str) : Str :=
  strL ("Cannot provide IDE features for this language inside documents of the same language: ") ++ lang

/-- Representative text of the missing-target-language message
(src/server.rs:261-272; the list of languages found in the document is part
of the real text and elided here). -/
def missingLangMessage (lang : Str) : Str :=
  strL ("No code blocks found for ") ++ lang

/-- Representative text of the unsupported-language message, which picks
one of two templates depending on whether the language appears in the
configuration (src/server.rs:313-355). -/
def unsupportedMessage (cfg : Config) (lang : Str) : Str :=
  match cfg.language.find? (fun l => l.name == lang) with
  | some _ => strL ("Language is configured but has no LSP server: ") ++ lang
  | none => strL ("Language is not configured: ") ++ lang

/-- The request parameters built at src/server.rs:300-303. -/
def requestParams (virtualUri : Str) (line char : Nat) : Json :=
  .obj [(strL ("textDocument"), .obj [(uriKey, .str virtualUri)]),
        (strL ("position"),
          .obj [(lineKey, .num (Int.ofNat line)), (charKey, .num (Int.ofNat char))])]

mutual

/-- Model of `map_virtual_refs_in_value` (src/server.rs:149-171) with the
string-level regex replacement (`map_virtual_doc_references`) supplied as
the oracle `f`. -/
def mapRefsJson (f : Str → Str) : Json → Json
  | .str s => .str (f s)
  | .obj kvs => .obj (mapRefsKvs f kvs)
  | .arr xs => .arr (mapRefsArr f xs)
  | .null => .null
  | .bool b => .bool b
  | .num n => .num n

/-- `mapRefsJson` mapped over an array. -/
def mapRefsArr (f : Str → Str) : List Json → List Json
  | [] => []
  | x :: xs => mapRefsJson f x :: mapRefsArr f xs

/-- `mapRefsJson` mapped over an object's values. -/
def mapRefsKvs (f : Str → Str) : List (Str × Json) → List (Str × Json)
  | [] => []
  | (k, v) :: t => (k, mapRefsJson f v) :: mapRefsKvs f t

end

/-- Apply the reference rewriter to the reply's `result` field, if present
(src/server.rs:427-429). -/
def mapRefsResult (f : Str → Str) (resp : Json) : Json :=
  match resp with
  | .obj kvs =>
    match lookupKey kvs resultKey with
    | some r => .obj (setKey kvs resultKey (mapRefsJson f r))
    | none => resp
  | _ => resp

/-- Overwrite the `uri` field of a location-shaped object
(src/server.rs:434-439 and 443-448). -/
def fixUriObj (uriStr : Str) (v : Json) : Json :=
  match v with
  | .obj o => if containsKey o uriKey then .obj (setKey o uriKey (.str uriStr)) else .obj o
  | _ => v

/-- Replace the virtual URI with the outer URI in the reply's `result`
field — single location or array of locations (src/server.rs:431-452). -/
def replaceResultUris (uriStr : Str) (resp : Json) : Json :=
  match resp with
  | .obj kvs =>
    match lookupKey kvs resultKey with
    | some r =>
      match r with
      | .obj _ => .obj (setKey kvs resultKey (fixUriObj uriStr r))
      | .arr locs => .obj (setKey kvs resultKey (.arr (locs.map (fixUriObj uriStr))))
      | _ => resp
    | none => resp
  | _ => resp

/-- The editor-facing JSON-RPC error type (`tower_lsp::jsonrpc::Error`);
the handler never constructs a value of it. -/
structure JsonrpcError where
  code : Int
  message : Str

/-- Oracles for the handler's effectful collaborators. -/
structure HandlerEnv where
  document : Option (List Str)
  childPresent : Bool
  spawnOk : Bool
  lookupOk : Bool
  childReply : Str → Json → Except Str Json
  refsRewrite : Str → Str
  cmdExists : Str → Bool

/-- Model of `LiterateLsp::handle_position_request` (src/server.rs:174-455),
branch for branch. -/
def handle_position_request (cfg : Config) (env : HandlerEnv) (method : Str)
    (posLine posChar : Nat) (uri : Str) : Except JsonrpcError Json :=
  match env.document with
  | none => .ok Json.null
  | some docLines =>
    match find_code_block_at_line docLines posLine with
    | none => .ok Json.null
    | some (lang, _bs, _be) =>
      if should_skip_language (get_document_language uri) lang then
        .ok (mkHoverResponse (selfRefMessage lang))
      else
        let vdoc := build_virtual_document docLines lang
        if vdoc.vlines.isEmpty then
          .ok (mkHoverResponse (missingLangMessage lang))
        else
          let mapper := mapperOfBlocks vdoc.blocks
          let virtualUri := construct_virtual_uri (extract_root_uri_base uri) lang
          let params := rewrite_positions mapper true (requestParams virtualUri posLine posChar)
          match get_command_and_args cfg env.cmdExists lang with
          | none => .ok (mkHoverResponse (unsupportedMessage cfg lang))
          | some _ =>
            if ¬ env.childPresent ∧ ¬ env.spawnOk then .ok Json.null
            else if ¬ env.lookupOk then .ok Json.null
            else
              match env.childReply method params with
              | .error _ => .ok Json.null
              | .ok resp =>
                .ok (replaceResultUris uri
                  (mapRefsResult env.refsRewrite (rewrite_positions mapper false resp)))

/-- C5.  For every configuration, environment oracle, method, position and
URI — covering the branches: no document, no fence at the line,
self-referential fence, empty projection, unconfigured language, child
spawn failure, child lookup failure, transport error or timeout or
malformed reply (the `Err` of `send_request_raw`), and the success path —
`handle_position_request` returns `Ok`; no editor-facing error response is
ever produced. -/
theorem C5_no_error_response (cfg : Config) (env : HandlerEnv) (method : Str)
    (posLine posChar : Nat) (uri : Str) :
    (handle_position_request cfg env method posLine posChar uri).isOk = true := by
  unfold handle_position_request
  repeat' first
    | rfl
    | dsimp only
    | split
